import Mathlib

/-!
# google-auth-totp: a verification development of `index.js`

The module `index.js` exports one object `totp` with the methods `base32tohex`,
`getOTP`, `randomBase32`, `generateSharedSecret` and `generateQrCode`.

## Conventions of the embedding

* A JavaScript string is modelled by the list of its characters (`List Char`), so every
  string is well-formed (no lone surrogate). The methods `charAt`, `length`, `slice`, `substr`
  count UTF-16 code units; all strings they are applied to here are ASCII, one code unit per
  character, except the argument of `base32tohex`, whose loop over code units is modelled per
  character (see `unitVals`). `encodeURIComponent` works on whole characters.
* A JavaScript number that holds an integer is an `Int` (or a `Nat` when it cannot be
  negative); `NaN` is `none` in an `Option`.  All integers that occur are far below `2^53`,
  where the arithmetic of doubles on integers is exact.
* The clock (`new Date().getTime()`), the random source (`Math.random`) and the HMAC of the
  `crypto` module are not code of this module: they are explicit arguments. The value that
  the HMAC argument has in Node, `hmacSha1`, is written from RFC 2104 and RFC 3174.
-/

namespace Totp

/-! ## JavaScript built-ins used by the module -/

/-- White space and line terminators that `parseInt` skips at the start of its argument. -/
def isWhiteSpace (c : Char) : Bool :=
  c.toNat ∈ [0x9, 0xA, 0xB, 0xC, 0xD, 0x20, 0xA0, 0x1680, 0x2000, 0x2001, 0x2002, 0x2003,
    0x2004, 0x2005, 0x2006, 0x2007, 0x2008, 0x2009, 0x200A, 0x2028, 0x2029, 0x202F, 0x205F,
    0x3000, 0xFEFF]

/-- Value of a character as a digit: `0-9` are 0..9, `a-z` and `A-Z` are 10..35. -/
def digitVal (c : Char) : Option Nat :=
  if 48 ≤ c.toNat ∧ c.toNat ≤ 57 then some (c.toNat - 48)
  else if 97 ≤ c.toNat ∧ c.toNat ≤ 122 then some (c.toNat - 87)
  else if 65 ≤ c.toNat ∧ c.toNat ≤ 90 then some (c.toNat - 55)
  else none

/-- Whether `c` is a digit of the given radix. -/
def isDigitOf (radix : Nat) (c : Char) : Bool :=
  match digitVal c with
  | some v => decide (v < radix)
  | none => false

/-- Value of a list of digits of the given radix, most significant first. -/
def digitsValue (radix : Nat) (ds : List Char) : Nat :=
  ds.foldl (fun acc c => radix * acc + (digitVal c).getD 0) 0

/-- Sign and rest of the argument of `parseInt`, after white space has been skipped. -/
def splitSign : List Char → Bool × List Char
  | '-' :: r => (true, r)
  | '+' :: r => (false, r)
  | s => (false, s)

/-- For radix 16, `parseInt` skips a leading `0x` or `0X`. -/
def stripHexMark (radix : Nat) : List Char → List Char
  | '0' :: 'x' :: r => if radix = 16 then r else '0' :: 'x' :: r
  | '0' :: 'X' :: r => if radix = 16 then r else '0' :: 'X' :: r
  | s => s

/-- The function `parseInt(s, radix)` for a radix in 2..36: skip white space, read a sign, for
radix 16 skip `0x`, read the longest run of digits of the radix; `NaN` (`none`) if that run is
empty. -/
def parseInt (s : List Char) (radix : Nat) : Option Int :=
  let (neg, r) := splitSign (s.dropWhile isWhiteSpace)
  let ds := (stripHexMark radix r).takeWhile (isDigitOf radix)
  if ds = [] then none
  else some (if neg then -(digitsValue radix ds : Int) else (digitsValue radix ds : Int))

/-- The method `Number.prototype.toString(radix)` on an integer. -/
def toStringRadix (n : Int) (radix : Nat) : List Char :=
  if n < 0 then '-' :: Nat.toDigits radix n.natAbs else Nat.toDigits radix n.natAbs

/-- The method `toString(radix)` on a number that may be `NaN`. -/
def numToString (n : Option Int) (radix : Nat) : List Char :=
  match n with
  | some v => toStringRadix v radix
  | none => ['N', 'a', 'N']

/-- The expression `Array(k).fill(0).join('')`: `k` characters `0`. -/
def zeros (k : Nat) : List Char := List.replicate k '0'

/-- The call `s.slice(-k)` for `k > 0`: the last `k` code units, the whole string if it is
shorter. -/
def sliceNeg (k : Nat) (s : List Char) : List Char := s.drop (s.length - k)

/-- The call `s.substr(start, len)` for `start ≥ 0`. -/
def substr (s : List Char) (start len : Nat) : List Char := (s.drop start).take len

/-- The method `String.prototype.toUpperCase` on a string of one code unit of the Basic
Multilingual Plane, restricted to what
`indexOf` in the alphabet can see: listed are all code units whose upper-case form occurs in
`ABCDEFGHIJKLMNOPQRSTUVWXYZ234567` (the ASCII letters, dotless i, long s, and the two
ligatures whose upper-case form is the two letters `ST`); every other code unit has an
upper-case form that does not occur in the alphabet and is left as it is here. -/
def toUpperCase (c : Char) : List Char :=
  if 97 ≤ c.toNat ∧ c.toNat ≤ 122 then [Char.ofNat (c.toNat - 32)]
  else if c.toNat = 0x131 then ['I']
  else if c.toNat = 0x17F then ['S']
  else if c.toNat = 0xFB05 ∨ c.toNat = 0xFB06 then ['S', 'T']
  else [c]

/-- Search of `needle` in `hay` from position `i` on (the positions before are `i` many). -/
def indexOfAux (needle : List Char) : List Char → Nat → Int
  | [], i => if needle = [] then (i : Int) else -1
  | h :: t, i => if needle.isPrefixOf (h :: t) then (i : Int) else indexOfAux needle t (i + 1)

/-- The method `hay.indexOf(needle)`: first position where `needle` occurs, or -1. -/
def indexOf (hay needle : List Char) : Int := indexOfAux needle hay 0

/-- Bitwise `x & y` of JavaScript on integers: both operands are taken modulo `2^32`, and the
32-bit result is read as a signed integer. `NaN` counts as 0. -/
def bitAnd (x y : Option Int) : Int :=
  let ux : Nat := ((x.getD 0) % 2 ^ 32).toNat
  let uy : Nat := ((y.getD 0) % 2 ^ 32).toNat
  let r : Nat := Nat.land ux uy
  if r < 2 ^ 31 then (r : Int) else (r : Int) - 2 ^ 32

/-- The call `Buffer.from(s, 'hex')` of Node (version 8 and later): one byte per pair of
hexadecimal digits; decoding stops at the first pair that is not two hexadecimal digits, and a
final single digit is dropped. -/
def bufferFromHex : List Char → List Nat
  | a :: b :: rest =>
    if isDigitOf 16 a && isDigitOf 16 b then
      (16 * (digitVal a).getD 0 + (digitVal b).getD 0) :: bufferFromHex rest
    else []
  | _ => []

/-- Hexadecimal text of a byte, two lowercase digits. -/
def hexByte (b : Nat) : List Char := [Nat.digitChar (b / 16 % 16), Nat.digitChar (b % 16)]

/-- Hexadecimal text of a byte buffer (what a stream with `setEncoding('hex')` reads). -/
def hexEncode (bytes : List Nat) : List Char := bytes.flatMap hexByte

/-! ## `base32tohex` -/

/-- The alphabet `base32chars`. -/
def base32chars : List Char := "ABCDEFGHIJKLMNOPQRSTUVWXYZ234567".toList

/-- The values `val = base32chars.indexOf(base32.charAt(i).toUpperCase())` for the code units
of the character `c`: one code unit for a character of the Basic Multilingual Plane, two
surrogate code units, which upper-casing leaves alone and the alphabet does not hold, for a
character beyond it. -/
def unitVals (c : Char) : List Int :=
  if c.toNat < 0x10000 then [indexOf base32chars (toUpperCase c)] else [-1, -1]

/-- The text appended to `bits` for one code unit,
`(Array(5).fill(0).join('') + val.toString(2)).slice(-5)`. -/
def valBits (val : Int) : List Char := sliceNeg 5 (zeros 5 ++ toStringRadix val 2)

/-- The text appended to `bits` by the first loop of `base32tohex` for the character `c`. -/
def symbolBits (c : Char) : List Char := (unitVals c).flatMap valBits

/-- The second loop of `base32tohex`,
`for (i = 0; i < bits.length - 3; i += 4) hex = hex + parseInt(bits.substr(i, 4), 2).toString(16)`,
run for at most `fuel` iterations from the state `(i, hex)`. -/
def hexLoop (bits : List Char) : Nat → Nat → List Char → List Char
  | 0, _, hex => hex
  | fuel + 1, i, hex =>
    if (i : Int) < (bits.length : Int) - 3 then
      hexLoop bits fuel (i + 4) (hex ++ numToString (parseInt (substr bits i 4) 2) 16)
    else hex

/-- The variable `bits` after the first loop of `base32tohex`. -/
def base32bits (base32 : List Char) : List Char :=
  base32.foldl (fun bits c => bits ++ symbolBits c) []

/-- The method `base32tohex(base32)`. The second loop gets `bits.length` iterations of fuel,
more than it can use since `i` grows by 4. -/
def base32tohex (base32 : List Char) : List Char :=
  let bits := base32bits base32
  hexLoop bits bits.length 0 []

/-! ## HMAC-SHA1 of the `crypto` module

The module calls `crypto.createHmac('sha1', key)`. The function is written here from RFC 3174
and RFC 2104 on lists of bytes; `getOTP` below takes the HMAC as an argument, and `hmacSha1` is
the value that argument has in Node. -/

/-- Rotation to the left of a 32-bit word. -/
def rotl32 (x n : Nat) : Nat := (x * 2 ^ n % 2 ^ 32) + x / 2 ^ (32 - n)

/-- Big-endian bytes of `n`, `k` of them. -/
def bytesBE : Nat → Nat → List Nat
  | 0, _ => []
  | k + 1, n => bytesBE k (n / 256) ++ [n % 256]

/-- Padding of SHA-1: a bit 1, zero bits up to 56 modulo 64 bytes, the bit length on 8 bytes. -/
def sha1Pad (msg : List Nat) : List Nat :=
  msg ++ [0x80] ++ List.replicate ((119 - msg.length % 64) % 64) 0 ++ bytesBE 8 (8 * msg.length)

/-- Big-endian 32-bit words of a list of bytes. -/
def wordsBE : List Nat → List Nat
  | a :: b :: c :: d :: r => (((a * 256 + b) * 256 + c) * 256 + d) :: wordsBE r
  | _ => []

/-- The message schedule: `n` more words after the list `w` (kept in reverse, last first). -/
def sha1Schedule : Nat → List Nat → List Nat
  | 0, w => w
  | n + 1, w =>
    sha1Schedule n
      (rotl32 (Nat.xor (Nat.xor (w.getD 2 0) (w.getD 7 0)) (Nat.xor (w.getD 13 0) (w.getD 15 0))) 1
        :: w)

/-- The function `f` and the constant `K` of round `t`. -/
def sha1F (t b c d : Nat) : Nat × Nat :=
  if t < 20 then (Nat.lor (Nat.land b c) (Nat.land (2 ^ 32 - 1 - b) d), 0x5A827999)
  else if t < 40 then (Nat.xor (Nat.xor b c) d, 0x6ED9EBA1)
  else if t < 60 then (Nat.lor (Nat.lor (Nat.land b c) (Nat.land b d)) (Nat.land c d), 0x8F1BBCDC)
  else (Nat.xor (Nat.xor b c) d, 0xCA62C1D6)

/-- The five 32-bit words of the state of SHA-1. -/
structure Sha1State where
  a : Nat
  b : Nat
  c : Nat
  d : Nat
  e : Nat

/-- One round of the compression function. -/
def sha1Round (s : Sha1State) (t w : Nat) : Sha1State :=
  let fk := sha1F t s.b s.c s.d
  { a := (rotl32 s.a 5 + fk.1 + s.e + fk.2 + w) % 2 ^ 32,
    b := s.a, c := rotl32 s.b 30, d := s.c, e := s.d }

/-- Rounds over the words `ws` from round `t` on. -/
def sha1Rounds : List Nat → Nat → Sha1State → Sha1State
  | [], _, s => s
  | w :: ws, t, s => sha1Rounds ws (t + 1) (sha1Round s t w)

/-- Compression of one block of 16 words. -/
def sha1Block (h : Sha1State) (block : List Nat) : Sha1State :=
  let w := (sha1Schedule 64 block.reverse).reverse
  let s := sha1Rounds w 0 h
  { a := (h.a + s.a) % 2 ^ 32, b := (h.b + s.b) % 2 ^ 32, c := (h.c + s.c) % 2 ^ 32,
    d := (h.d + s.d) % 2 ^ 32, e := (h.e + s.e) % 2 ^ 32 }

/-- Blocks: `n` blocks of 16 words. -/
def sha1Blocks : Nat → List Nat → Sha1State → Sha1State
  | 0, _, h => h
  | n + 1, ws, h => sha1Blocks n (ws.drop 16) (sha1Block h (ws.take 16))

/-- SHA-1 of a list of bytes (RFC 3174). -/
def sha1 (msg : List Nat) : List Nat :=
  let ws := wordsBE (sha1Pad msg)
  let h := sha1Blocks (ws.length / 16) ws
    { a := 0x67452301, b := 0xEFCDAB89, c := 0x98BADCFE, d := 0x10325476, e := 0xC3D2E1F0 }
  bytesBE 4 h.a ++ bytesBE 4 h.b ++ bytesBE 4 h.c ++ bytesBE 4 h.d ++ bytesBE 4 h.e

/-- HMAC with SHA-1 as RFC 2104 defines it: the digest that `crypto.createHmac('sha1', key)`
of Node computes for the message `msg`. -/
def hmacSha1 (key msg : List Nat) : List Nat :=
  let k0 := if key.length > 64 then sha1 key else key
  let k := k0 ++ List.replicate (64 - k0.length) 0
  sha1 (k.map (fun b => Nat.xor b 0x5c) ++ sha1 (k.map (fun b => Nat.xor b 0x36) ++ msg))

/-! ## `getOTP` -/

/-- The expression `Math.round(ms / 1000)` for a clock reading of `ms ≥ 0` milliseconds:
rounding to the nearest integer, a half rounding up. (On doubles `ms / 1000` is a half-integer
exactly when `ms % 1000 = 500`, for every `ms` a `Date` can hold, so the integer formula is
exact.) -/
def roundSeconds (ms : Nat) : Nat := (ms + 500) / 1000

/-- The counter `Math.floor(Math.round(new Date().getTime() / 1000) / 30)`. -/
def timeCounter (ms : Nat) : Nat := roundSeconds ms / 30

/-- The hexadecimal text of the counter,
`(Array(16).fill(0).join('') + counter.toString(16)).slice(-16)`. -/
def counterHex (counter : Nat) : List Char :=
  sliceNeg 16 (zeros 16 ++ toStringRadix (counter : Int) 16)

/-- The buffer `mssg` built from a counter value. -/
def counterBytes (counter : Nat) : List Nat := bufferFromHex (counterHex counter)

/-- The buffer `mssg` of `getOTP` at the clock reading `ms`. -/
def mssg (ms : Nat) : List Nat := counterBytes (timeCounter ms)

/-- The integer `parseInt(hmac.substr(parseInt(hmac.slice(-1), 16) * 2, 8), 16) & 2147483647`
of the last line of `getOTP`; a `NaN` offset makes `substr` start at 0. -/
def truncatedValue (hmac : List Char) : Int :=
  let offset : Option Int := parseInt (sliceNeg 1 hmac) 16
  let start : Nat := ((offset.getD 0) * 2).toNat
  bitAnd (parseInt (substr hmac start 8) 16) (some 2147483647)

/-- The last line of `getOTP` on the hexadecimal text `hmac` of the digest:
`((… & 2147483647) + '').slice(-6)`. -/
def otpOfDigest (hmac : List Char) : List Char :=
  sliceNeg 6 (toStringRadix (truncatedValue hmac) 10)

/-- The method `getOTP(secret)`; `hmac key message` stands for the 20-byte digest that
`crypto.createHmac('sha1', key)` computes for `message` (see `hmacSha1`) and `now` for the clock
reading `new Date().getTime()`. -/
def getOTP (hmac : List Nat → List Nat → List Nat) (now : Nat) (secret : List Char) :
    List Char :=
  let mssg := mssg now
  let key := bufferFromHex (base32tohex secret)
  let hmac := hexEncode (hmac key mssg)
  otpOfDigest hmac

/-! ## `randomBase32` and `generateSharedSecret` -/

/-- The expression `base32chars.split('')[Math.floor(r * 32)]` for a draw `r` of `Math.random()`;
`none` is `undefined`. -/
def randomSymbol (r : ℚ) : Option Char :=
  if ⌊r * 32⌋ < 0 then none else base32chars[(⌊r * 32⌋).toNat]?

/-- The method `randomBase32(length)` for a non-negative integer `length`; `draws i` is the
value that the `i`-th call of `Math.random()` returns. An `undefined` element of the array is
joined as the empty string. -/
def randomBase32 (draws : Nat → ℚ) (length : Nat) : List Char :=
  let length := if length % 2 = 0 then length else length + 1
  let secret := (List.range length).map (fun i => randomSymbol (draws i))
  secret.flatMap (fun x => x.toList)

/-- The method `generateSharedSecret()`. -/
def generateSharedSecret (draws : Nat → ℚ) : List Char := randomBase32 draws 16

/-! ## `generateQrCode` -/

/-- The property `siteIcon`. -/
def siteIcon : List Char :=
  "https://dharma.ai/wp-content/uploads/2018/06/favicon-150x150.png".toList

/-- The property `qRCodeSize`. -/
def qRCodeSize : List Char := "300x300".toList

/-- The property `siteDomain`. -/
def siteDomain : List Char := "dharma.ai".toList

/-- The property `siteId`. -/
def siteId : List Char := "Dharma.AI".toList

/-- The property `googleChartApiBase`. -/
def googleChartApiBase : List Char := "https://chart.googleapis.com/chart".toList

/-- The characters that `encodeURIComponent` leaves as they are (`uriUnreserved` of ECMAScript):
the ASCII letters, the decimal digits and the marks `- _ . ! ~ * ' ( )`. -/
def isUriUnreserved (c : Char) : Bool :=
  (65 ≤ c.toNat ∧ c.toNat ≤ 90) ∨ (97 ≤ c.toNat ∧ c.toNat ≤ 122) ∨ (48 ≤ c.toNat ∧ c.toNat ≤ 57) ∨
    c.toNat ∈ [0x2D, 0x5F, 0x2E, 0x21, 0x7E, 0x2A, 0x27, 0x28, 0x29]

/-- The UTF-8 encoding of a character. -/
def utf8Encode (c : Char) : List Nat :=
  if c.toNat < 0x80 then [c.toNat]
  else if c.toNat < 0x800 then [0xC0 + c.toNat / 64, 0x80 + c.toNat % 64]
  else if c.toNat < 0x10000 then
    [0xE0 + c.toNat / 4096, 0x80 + c.toNat / 64 % 64, 0x80 + c.toNat % 64]
  else
    [0xF0 + c.toNat / 262144, 0x80 + c.toNat / 4096 % 64, 0x80 + c.toNat / 64 % 64,
      0x80 + c.toNat % 64]

/-- An uppercase hexadecimal digit. -/
def hexUpper (v : Nat) : Char := "0123456789ABCDEF".toList.getD v '0'

/-- The escape `%XX` of a byte, with uppercase hexadecimal digits. -/
def pctByte (b : Nat) : List Char := ['%', hexUpper (b / 16 % 16), hexUpper (b % 16)]

/-- The text that `encodeURIComponent` produces for one character. -/
def encodeChar (c : Char) : List Char :=
  if isUriUnreserved c then [c] else (utf8Encode c).flatMap pctByte

/-- The function `encodeURIComponent` on a well-formed string (a string without lone
surrogates, on which it raises no `URIError`). -/
def encodeURIComponent (s : List Char) : List Char := s.flatMap encodeChar

/-- The constant `otpAuthUrl` of `generateQrCode`, the template literal
`otpauth://totp/$(siteId):$(user)?secret=$(secret)&issuer=$(siteId)&image=$(siteIcon)`
(with `$(x)` for the substitution of `x`). -/
def otpAuthUrl (secret user : List Char) : List Char :=
  "otpauth://totp/".toList ++ siteId ++ ":".toList ++ user ++ "?secret=".toList ++ secret
    ++ "&issuer=".toList ++ siteId ++ "&image=".toList ++ siteIcon

/-- The method `generateQrCode(secret, user)`, called on the object `totp`, for string
arguments. -/
def generateQrCode (secret user : List Char) : List Char :=
  googleChartApiBase ++ "?chs=".toList ++ qRCodeSize ++ "&chld=M|0&chr=qr&chl=".toList
    ++ encodeURIComponent (otpAuthUrl secret user)


/-! ## Reference definitions

What the specification says in words, as definitions of their own, to be compared with the
embedding of the code above. -/

/-- Position of a symbol in the alphabet (0..31 for the 32 symbols). -/
def alphabetIndex (c : Char) : Nat := base32chars.indexOf c

/-- The 5-bit big-endian binary form of `v`. -/
def bits5 (v : Nat) : List Nat := [v / 16 % 2, v / 8 % 2, v / 4 % 2, v / 2 % 2, v % 2]

/-- The bit string `B`: the 5-bit forms of the alphabet indices of the symbols of `s`,
concatenated in input order. -/
def streamBits (s : List Char) : List Nat := s.flatMap (fun c => bits5 (alphabetIndex c))

/-- The 4-bit number `B[4k..4k+3]`. -/
def streamNibble (s : List Char) (k : Nat) : Nat :=
  8 * (streamBits s).getD (4 * k) 0 + 4 * (streamBits s).getD (4 * k + 1) 0
    + 2 * (streamBits s).getD (4 * k + 2) 0 + (streamBits s).getD (4 * k + 3) 0

/-- The characters of lowercase hexadecimal text. -/
def hexChars : List Char := "0123456789abcdef".toList

/-- The digest `aafb2fcd545ea88000db8f9ab681ab5383dad2e7`: the HMAC-SHA1 of the 8-byte counter
56827958 (Unix time 1704838740 s) under the key of the secret `JBSWY3DPEHPK3PXP`. -/
def shortDigest : List Nat :=
  [0xaa, 0xfb, 0x2f, 0xcd, 0x54, 0x5e, 0xa8, 0x80, 0x00, 0xdb, 0x8f, 0x9a, 0xb6, 0x81, 0xab,
   0x53, 0x83, 0xda, 0xd2, 0xe7]

/-- The 8 bits of a byte, most significant first. -/
def byteBits (b : Nat) : List Nat :=
  [b / 128 % 2, b / 64 % 2, b / 32 % 2, b / 16 % 2, b / 8 % 2, b / 4 % 2, b / 2 % 2, b % 2]

/-- RFC 4648, section 6: the bit stream is cut into groups of 5 bits, each group read as a
number, most significant bit first; a last group of fewer than 5 bits is filled with zero bits
on the right. -/
def quintets : List Nat → List Nat
  | a :: b :: c :: d :: e :: r => (16 * a + 8 * b + 4 * c + 2 * d + e) :: quintets r
  | [a, b, c, d] => [16 * a + 8 * b + 4 * c + 2 * d]
  | [a, b, c] => [16 * a + 8 * b + 4 * c]
  | [a, b] => [16 * a + 8 * b]
  | [a] => [16 * a]
  | [] => []

/-- The base32 encoding of RFC 4648 of a byte sequence, without the padding characters `=`. -/
def rfc4648Encode (bytes : List Nat) : List Char :=
  (quintets (bytes.flatMap byteBits)).map (fun v => base32chars.getD v 'A')

/-- RFC 4226, section 5.3, on the bytes of the digest. -/
def rfc4226Truncate (d : List Nat) : Nat :=
  let o := d.getD 19 0 % 16
  (d.getD o 0 * 2 ^ 24 + d.getD (o + 1) 0 * 2 ^ 16 + d.getD (o + 2) 0 * 2 ^ 8 + d.getD (o + 3) 0)
    % 2 ^ 31

/-- Value of a list of digit values in the given radix, most significant first. -/
def valueOfDigits (radix : Nat) (vs : List Nat) : Nat :=
  vs.foldl (fun acc v => radix * acc + v) 0


/-- ASCII upper-casing of a string, `upper(s)`. -/
def asciiUpper (s : List Char) : List Char :=
  s.map (fun c => if 97 ≤ c.toNat ∧ c.toNat ≤ 122 then Char.ofNat (c.toNat - 32) else c)

/-- ASCII lower-casing of a string, `lower(s)`. -/
def asciiLower (s : List Char) : List Char :=
  s.map (fun c => if 65 ≤ c.toNat ∧ c.toNat ≤ 90 then Char.ofNat (c.toNat + 32) else c)

/-- The characters that a base32 secret may hold in either case: the ASCII letters and the
digits 2 to 7. -/
def secretChars : List Char :=
  "ABCDEFGHIJKLMNOPQRSTUVWXYZabcdefghijklmnopqrstuvwxyz234567".toList


/-- The value of the bits `B[8j..8j+7]` of the bit string `B` of `s`, most significant first. -/
def streamByte (s : List Char) (j : Nat) : Nat :=
  128 * (streamBits s).getD (8 * j) 0 + 64 * (streamBits s).getD (8 * j + 1) 0
    + 32 * (streamBits s).getD (8 * j + 2) 0 + 16 * (streamBits s).getD (8 * j + 3) 0
    + 8 * (streamBits s).getD (8 * j + 4) 0 + 4 * (streamBits s).getD (8 * j + 5) 0
    + 2 * (streamBits s).getD (8 * j + 6) 0 + (streamBits s).getD (8 * j + 7) 0

/-- Percent-decoding, first step: the bytes of a text of ASCII characters and escapes `%XX`;
`none` for a `%` that is not followed by two hexadecimal digits and for a character that is
not ASCII. -/
def percentBytes : List Char → Option (List Nat)
  | [] => some []
  | c :: rest =>
    if c.toNat = 37 then
      match rest with
      | a :: b :: rest2 =>
        if isDigitOf 16 a && isDigitOf 16 b then
          (percentBytes rest2).map (fun l => (16 * (digitVal a).getD 0 + (digitVal b).getD 0) :: l)
        else none
      | _ => none
    else if c.toNat < 128 then (percentBytes rest).map (fun l => c.toNat :: l)
    else none

/-- A continuation byte of UTF-8, `10xxxxxx`. -/
def isCont (b : Nat) : Bool := decide (0x80 ≤ b ∧ b < 0xC0)

/-- One step of the decoding of UTF-8. The state holds the characters decoded so far, the
number of continuation bytes still to come, the bits read of the character in progress and
the least value that a sequence of its length may encode; `none` is a failure. -/
def utf8Step (st : Option (List Char × Nat × Nat × Nat)) (b : Nat) :
    Option (List Char × Nat × Nat × Nat) :=
  match st with
  | none => none
  | some (acc, need, cp, lo) =>
    if need = 0 then
      if b < 0x80 then some (acc ++ [Char.ofNat b], 0, 0, 0)
      else if b < 0xC0 then none
      else if b < 0xE0 then some (acc, 1, b - 0xC0, 0x80)
      else if b < 0xF0 then some (acc, 2, b - 0xE0, 0x800)
      else if b < 0xF8 then some (acc, 3, b - 0xF0, 0x10000)
      else none
    else if isCont b then
      if need = 1 then
        if lo ≤ cp * 64 + (b - 0x80) ∧ Nat.isValidChar (cp * 64 + (b - 0x80)) then
          some (acc ++ [Char.ofNat (cp * 64 + (b - 0x80))], 0, 0, 0)
        else none
      else some (acc, need - 1, cp * 64 + (b - 0x80), lo)
    else none

/-- Percent-decoding, second step: decoding of UTF-8; `none` for a sequence that is not the
UTF-8 encoding of a string (truncated or overlong forms, surrogates, values above
`0x10FFFF`). -/
def utf8Decode (bytes : List Nat) : Option (List Char) :=
  match bytes.foldl utf8Step (some ([], 0, 0, 0)) with
  | some (acc, 0, _, _) => some acc
  | _ => none

/-- Percent-decoding of a text (what `decodeURIComponent` computes on a text of ASCII
characters and escapes): the escapes are turned into bytes, the bytes are read as UTF-8. -/
def percentDecode (s : List Char) : Option (List Char) := (percentBytes s).bind utf8Decode

/-! ## Definitions used in the proofs -/

/-- The second loop of `base32tohex` as a recursion over `bits`, four characters at a time. -/
def hexOfBits : List Char → List Char
  | a :: b :: c :: d :: r => numToString (parseInt [a, b, c, d] 2) 16 ++ hexOfBits r
  | _ => []

/-- Values of the successive groups of four bits of a list of bits; an incomplete last group
is dropped. -/
def nibbleList : List Nat → List Nat
  | a :: b :: c :: d :: r => (8 * a + 4 * b + 2 * c + d) :: nibbleList r
  | _ => []

/-- The `k` digits of `n % b ^ k` in radix `b`, most significant first. -/
def fixedDigits (b : Nat) : Nat → Nat → List Nat
  | 0, _ => []
  | k + 1, n => fixedDigits b k (n / b) ++ [n % b]

/-- Bytes of a list of hexadecimal digit values taken in pairs. -/
def pairUp : List Nat → List Nat
  | a :: b :: r => (16 * a + b) :: pairUp r
  | _ => []


/-! ## Auxiliary lemmas -/

set_option maxRecDepth 100000

theorem base32bits_eq_flatMap (s : List Char) : base32bits s = s.flatMap symbolBits := by
  unfold base32bits
  rw [List.flatMap_eq_foldl]

theorem symbolBits_of_mem : ∀ c ∈ base32chars,
    symbolBits c = (bits5 (alphabetIndex c)).map Nat.digitChar ∧ alphabetIndex c < 32 := by
  decide

theorem hexLoop_eq (bits : List Char) : ∀ (fuel i : Nat) (hex : List Char),
    bits.length ≤ fuel + i → hexLoop bits fuel i hex = hex ++ hexOfBits (bits.drop i) := by
  intro fuel
  induction fuel with
  | zero =>
    intro i hex h
    simp only [hexLoop]
    have : bits.drop i = [] := List.drop_eq_nil_of_le (by omega)
    simp [this, hexOfBits]
  | succ f ih =>
    intro i hex h
    simp only [hexLoop]
    split
    · rename_i hlt
      rw [ih (i + 4) _ (by omega)]
      have h4 : i + 4 ≤ bits.length := by omega
      obtain ⟨a, b, c, d, r, hr⟩ : ∃ a b c d r, bits.drop i = a :: b :: c :: d :: r := by
        have hl : (bits.drop i).length ≥ 4 := by simp; omega
        match hd : bits.drop i, hl with
        | a :: b :: c :: d :: r, _ => exact ⟨a, b, c, d, r, rfl⟩
      have hdrop : bits.drop (i + 4) = r := by
        rw [← List.drop_drop, hr]; rfl
      simp [substr, hr, hdrop, hexOfBits]
    · rename_i hge
      have : (bits.drop i).length < 4 := by simp; omega
      match hd : bits.drop i, this with
      | [], _ => simp [hexOfBits]
      | [_], _ => simp [hexOfBits]
      | [_, _], _ => simp [hexOfBits]
      | [_, _, _], _ => simp [hexOfBits]

theorem chunk_hex : ∀ a < 2, ∀ b < 2, ∀ c < 2, ∀ d < 2,
    numToString (parseInt [Nat.digitChar a, Nat.digitChar b, Nat.digitChar c, Nat.digitChar d] 2) 16
      = [Nat.digitChar (8 * a + 4 * b + 2 * c + d)] := by
  decide

theorem hexOfBits_map : ∀ (L : List Nat), (∀ x ∈ L, x < 2) →
    hexOfBits (L.map Nat.digitChar) = (nibbleList L).map Nat.digitChar
  | a :: b :: c :: d :: r, h => by
    have ih := hexOfBits_map r (fun x hx => h x (by simp [hx]))
    simp only [List.map_cons, hexOfBits, nibbleList, ih]
    rw [chunk_hex a (h a (by simp)) b (h b (by simp)) c (h c (by simp)) d (h d (by simp))]
    rfl
  | [], _ => rfl
  | [_], _ => rfl
  | [_, _], _ => rfl
  | [_, _, _], _ => rfl

theorem nibbleList_length : ∀ (L : List Nat), (nibbleList L).length = L.length / 4
  | a :: b :: c :: d :: r => by
    simp only [nibbleList, List.length_cons, nibbleList_length r]; omega
  | [] => rfl
  | [_] => by simp [nibbleList]
  | [_, _] => by simp [nibbleList]
  | [_, _, _] => by simp [nibbleList]

theorem nibbleList_getD : ∀ (L : List Nat) (k : Nat), k < L.length / 4 →
    (nibbleList L).getD k 0 =
      8 * L.getD (4 * k) 0 + 4 * L.getD (4 * k + 1) 0 + 2 * L.getD (4 * k + 2) 0
        + L.getD (4 * k + 3) 0
  | a :: b :: c :: d :: r, 0, _ => by simp [nibbleList]
  | a :: b :: c :: d :: r, k + 1, h => by
    have ih := nibbleList_getD r k (by simp only [List.length_cons] at h; omega)
    simp only [nibbleList, List.getD_cons_succ, ih, Nat.mul_add, Nat.mul_one]
  | [], k, h => by simp at h
  | [_], k, h => by simp only [List.length_cons, List.length_nil] at h; omega
  | [_, _], k, h => by simp only [List.length_cons, List.length_nil] at h; omega
  | [_, _, _], k, h => by simp only [List.length_cons, List.length_nil] at h; omega

theorem streamBits_length (s : List Char) : (streamBits s).length = 5 * s.length := by
  induction s with
  | nil => rfl
  | cons c t ih =>
    unfold streamBits at ih ⊢
    rw [List.flatMap_cons, List.length_append, ih]
    simp only [bits5, List.length_cons, List.length_nil]
    omega

theorem streamBits_lt_two (s : List Char) : ∀ x ∈ streamBits s, x < 2 := by
  intro x hx
  simp only [streamBits, List.mem_flatMap, bits5, List.mem_cons, List.mem_singleton,
    List.not_mem_nil, or_false] at hx
  obtain ⟨c, _, h⟩ := hx
  omega

theorem base32bits_of_valid (s : List Char) (hs : ∀ c ∈ s, c ∈ base32chars) :
    base32bits s = (streamBits s).map Nat.digitChar := by
  rw [base32bits_eq_flatMap]
  induction s with
  | nil => rfl
  | cons c t ih =>
    have hc := (symbolBits_of_mem c (hs c (by simp))).1
    have ht := ih (fun x hx => hs x (by simp [hx]))
    simp only [streamBits, List.flatMap_cons, List.map_append] at ht ⊢
    rw [hc, ht]

theorem base32tohex_eq_nibbles (s : List Char) (hs : ∀ c ∈ s, c ∈ base32chars) :
    base32tohex s = (nibbleList (streamBits s)).map Nat.digitChar := by
  unfold base32tohex
  simp only
  rw [hexLoop_eq _ _ 0 [] (by omega), base32bits_of_valid s hs]
  simp only [List.drop_zero, List.nil_append]
  exact hexOfBits_map _ (streamBits_lt_two s)

theorem streamNibble_lt (s : List Char) (k : Nat) : streamNibble s k < 16 := by
  have h : ∀ j, (streamBits s).getD j 0 < 2 := by
    intro j
    by_cases hj : j < (streamBits s).length
    · rw [List.getD_eq_getElem _ _ hj]
      exact streamBits_lt_two s _ (List.getElem_mem _)
    · rw [List.getD_eq_default _ _ (by omega)]; omega
  have h0 := h (4 * k)
  have h1 := h (4 * k + 1)
  have h2 := h (4 * k + 2)
  have h3 := h (4 * k + 3)
  unfold streamNibble
  omega

theorem base32bits_append (a b : List Char) :
    base32bits (a ++ b) = base32bits a ++ base32bits b := by
  simp only [base32bits_eq_flatMap, List.flatMap_append]

theorem nibbleList_lt : ∀ (L : List Nat), (∀ x ∈ L, x < 2) → ∀ v ∈ nibbleList L, v < 16
  | a :: b :: c :: d :: r, h, v, hv => by
    simp only [nibbleList, List.mem_cons] at hv
    rcases hv with rfl | hv
    · have ha := h a (by simp)
      have hb := h b (by simp)
      have hc := h c (by simp)
      have hd := h d (by simp)
      omega
    · exact nibbleList_lt r (fun x hx => h x (by simp [hx])) v hv
  | [], _, v, hv => by simp [nibbleList] at hv
  | [_], _, v, hv => by simp [nibbleList] at hv
  | [_, _], _, v, hv => by simp [nibbleList] at hv
  | [_, _, _], _, v, hv => by simp [nibbleList] at hv

theorem digitChar_mem_hexChars : ∀ v < 16, Nat.digitChar v ∈ hexChars := by decide

theorem alphabet_getD : ∀ v < 32,
    base32chars.getD v 'A' ∈ base32chars ∧ alphabetIndex (base32chars.getD v 'A') = v := by
  decide

theorem quintets_lt : ∀ (L : List Nat), (∀ x ∈ L, x < 2) → ∀ v ∈ quintets L, v < 32
  | a :: b :: c :: d :: e :: r, h, v, hv => by
    simp only [quintets, List.mem_cons] at hv
    rcases hv with rfl | hv
    · have ha := h a (by simp)
      have hb := h b (by simp)
      have hc := h c (by simp)
      have hd := h d (by simp)
      have he := h e (by simp)
      omega
    · exact quintets_lt r (fun x hx => h x (by simp [hx])) v hv
  | [a, b, c, d], h, v, hv => by
    simp only [quintets, List.mem_singleton] at hv
    have ha := h a (by simp)
    have hb := h b (by simp)
    have hc := h c (by simp)
    have hd := h d (by simp)
    omega
  | [a, b, c], h, v, hv => by
    simp only [quintets, List.mem_singleton] at hv
    have ha := h a (by simp)
    have hb := h b (by simp)
    have hc := h c (by simp)
    omega
  | [a, b], h, v, hv => by
    simp only [quintets, List.mem_singleton] at hv
    have ha := h a (by simp)
    have hb := h b (by simp)
    omega
  | [a], h, v, hv => by
    simp only [quintets, List.mem_singleton] at hv
    have ha := h a (by simp)
    omega
  | [], _, v, hv => by simp [quintets] at hv

/-- The bits of the quintets are the bit stream itself followed by at most 4 zero bits. -/
theorem quintets_bits : ∀ (L : List Nat), (∀ x ∈ L, x < 2) →
    ∃ z, z < 5 ∧ (quintets L).flatMap bits5 = L ++ List.replicate z 0
  | a :: b :: c :: d :: e :: r, h => by
    obtain ⟨z, hz, ih⟩ := quintets_bits r (fun x hx => h x (by simp [hx]))
    refine ⟨z, hz, ?_⟩
    have ha := h a (by simp)
    have hb := h b (by simp)
    have hc := h c (by simp)
    have hd := h d (by simp)
    have he := h e (by simp)
    simp only [quintets, List.flatMap_cons, ih, bits5, List.cons_append, List.nil_append,
      List.cons.injEq, and_true]
    omega
  | [a, b, c, d], h => by
    have ha := h a (by simp)
    have hb := h b (by simp)
    have hc := h c (by simp)
    have hd := h d (by simp)
    refine ⟨1, by omega, ?_⟩
    simp only [quintets, List.flatMap_cons, List.flatMap_nil, bits5, List.append_nil,
      List.cons_append, List.nil_append, List.replicate, List.cons.injEq, and_true]
    omega
  | [a, b, c], h => by
    have ha := h a (by simp)
    have hb := h b (by simp)
    have hc := h c (by simp)
    refine ⟨2, by omega, ?_⟩
    simp only [quintets, List.flatMap_cons, List.flatMap_nil, bits5, List.append_nil,
      List.cons_append, List.nil_append, List.replicate, List.cons.injEq, and_true]
    omega
  | [a, b], h => by
    have ha := h a (by simp)
    have hb := h b (by simp)
    refine ⟨3, by omega, ?_⟩
    simp only [quintets, List.flatMap_cons, List.flatMap_nil, bits5, List.append_nil,
      List.cons_append, List.nil_append, List.replicate, List.cons.injEq, and_true]
    omega
  | [a], h => by
    have ha := h a (by simp)
    refine ⟨4, by omega, ?_⟩
    simp only [quintets, List.flatMap_cons, List.flatMap_nil, bits5, List.append_nil,
      List.cons_append, List.nil_append, List.replicate, List.cons.injEq, and_true]
    omega
  | [], _ => ⟨0, by omega, rfl⟩

theorem nibbleList_byteBits (x : Nat) (r : List Nat) :
    nibbleList (byteBits x ++ r) = (x / 16 % 16) :: (x % 16) :: nibbleList r := by
  simp only [byteBits, List.cons_append, List.nil_append, nibbleList, List.cons.injEq]
  exact ⟨by omega, by omega, rfl⟩

theorem nibbleList_bytes (bytes : List Nat) (P : List Nat) :
    (nibbleList (bytes.flatMap byteBits ++ P)).map Nat.digitChar
      = hexEncode bytes ++ (nibbleList P).map Nat.digitChar := by
  induction bytes with
  | nil => simp [hexEncode]
  | cons x t ih =>
    simp only [List.flatMap_cons, List.append_assoc, nibbleList_byteBits, List.map_cons, ih,
      hexEncode, hexByte, List.cons_append, List.nil_append]

theorem byteBits_lt_two (bytes : List Nat) : ∀ x ∈ bytes.flatMap byteBits, x < 2 := by
  intro x hx
  simp only [List.mem_flatMap, byteBits, List.mem_cons, List.mem_singleton,
    List.not_mem_nil, or_false] at hx
  obtain ⟨c, _, h⟩ := hx
  omega

theorem rfc4648Encode_valid (bytes : List Nat) : ∀ c ∈ rfc4648Encode bytes, c ∈ base32chars := by
  intro c hc
  simp only [rfc4648Encode, List.mem_map] at hc
  obtain ⟨v, hv, rfl⟩ := hc
  exact (alphabet_getD v (quintets_lt _ (byteBits_lt_two bytes) v hv)).1

theorem streamBits_rfc4648Encode (bytes : List Nat) :
    streamBits (rfc4648Encode bytes) = (quintets (bytes.flatMap byteBits)).flatMap bits5 := by
  have h := quintets_lt _ (byteBits_lt_two bytes)
  simp only [streamBits, rfc4648Encode]
  generalize quintets (bytes.flatMap byteBits) = Q at h ⊢
  induction Q with
  | nil => rfl
  | cons v t ih =>
    simp only [List.map_cons, List.flatMap_cons, (alphabet_getD v (h v (by simp))).2]
    rw [ih (fun x hx => h x (by simp [hx]))]

theorem hexEncode_length (bytes : List Nat) : (hexEncode bytes).length = 2 * bytes.length := by
  induction bytes with
  | nil => rfl
  | cons x t ih =>
    simp only [hexEncode, List.flatMap_cons, List.length_append, hexByte, List.length_cons,
      List.length_nil] at ih ⊢
    omega

theorem nibbleList_zeros : ∀ z < 5, ∃ k, k ≤ 1 ∧
    (nibbleList (List.replicate z 0)).map Nat.digitChar = zeros k := by
  intro z hz
  interval_cases z
  · exact ⟨0, by omega, rfl⟩
  · exact ⟨0, by omega, rfl⟩
  · exact ⟨0, by omega, rfl⟩
  · exact ⟨0, by omega, rfl⟩
  · exact ⟨1, by omega, rfl⟩

theorem base32tohex_rfc4648Encode (bytes : List Nat) :
    ∃ k, k ≤ 1 ∧ base32tohex (rfc4648Encode bytes) = hexEncode bytes ++ zeros k := by
  rw [base32tohex_eq_nibbles _ (rfc4648Encode_valid bytes), streamBits_rfc4648Encode]
  obtain ⟨z, hz, hq⟩ := quintets_bits _ (byteBits_lt_two bytes)
  obtain ⟨k, hk, hzs⟩ := nibbleList_zeros z hz
  exact ⟨k, hk, by rw [hq, nibbleList_bytes, hzs]⟩

theorem hexDigit_facts : ∀ v < 16,
    isWhiteSpace (Nat.digitChar v) = false ∧ Nat.digitChar v ≠ '-' ∧ Nat.digitChar v ≠ '+' ∧
    Nat.digitChar v ≠ 'x' ∧ Nat.digitChar v ≠ 'X' ∧ isDigitOf 16 (Nat.digitChar v) = true ∧
    digitVal (Nat.digitChar v) = some v := by
  decide

theorem splitSign_of_ne (c : Char) (r : List Char) (h1 : c ≠ '-') (h2 : c ≠ '+') :
    splitSign (c :: r) = (false, c :: r) := by
  unfold splitSign
  split <;> simp_all

theorem stripHexMark_of_ne (radix : Nat) (s : List Char)
    (h : ∀ c r, s = '0' :: c :: r → c ≠ 'x' ∧ c ≠ 'X') : stripHexMark radix s = s := by
  unfold stripHexMark
  split
  · rename_i r
    exact absurd rfl (h 'x' r rfl).1
  · rename_i r
    exact absurd rfl (h 'X' r rfl).2
  · rfl

theorem takeWhile_all (p : Char → Bool) : ∀ (l : List Char), (∀ c ∈ l, p c = true) →
    l.takeWhile p = l
  | [], _ => rfl
  | c :: t, h => by
    rw [List.takeWhile_cons, h c (by simp), if_pos rfl,
      takeWhile_all p t (fun x hx => h x (by simp [hx]))]

theorem foldl_digitVal (radix : Nat) : ∀ (vs : List Nat) (acc : Nat), (∀ v ∈ vs, v < 16) →
    (vs.map Nat.digitChar).foldl (fun acc c => radix * acc + (digitVal c).getD 0) acc
      = vs.foldl (fun acc v => radix * acc + v) acc
  | [], _, _ => rfl
  | v :: t, acc, h => by
    simp only [List.map_cons, List.foldl_cons, (hexDigit_facts v (h v (by simp))).2.2.2.2.2.2,
      Option.getD_some]
    exact foldl_digitVal radix t _ (fun x hx => h x (by simp [hx]))

theorem parseInt_hexDigits (vs : List Nat) (hne : vs ≠ []) (h : ∀ v ∈ vs, v < 16) :
    parseInt (vs.map Nat.digitChar) 16 = some ((valueOfDigits 16 vs : Nat) : Int) := by
  obtain ⟨v, t, rfl⟩ : ∃ v t, vs = v :: t := by
    cases vs with
    | nil => exact absurd rfl hne
    | cons v t => exact ⟨v, t, rfl⟩
  have hv := hexDigit_facts v (h v (by simp))
  have hall : ∀ c ∈ (v :: t).map Nat.digitChar, isDigitOf 16 c = true := by
    intro c hc
    rw [List.mem_map] at hc
    obtain ⟨w, hw, rfl⟩ := hc
    exact (hexDigit_facts w (h w hw)).2.2.2.2.2.1
  have hstrip : stripHexMark 16 ((v :: t).map Nat.digitChar) = (v :: t).map Nat.digitChar := by
    apply stripHexMark_of_ne
    intro c r hs
    cases t with
    | nil => simp at hs
    | cons w t2 =>
      simp only [List.map_cons, List.cons.injEq] at hs
      have hw := hexDigit_facts w (h w (by simp))
      rw [← hs.2.1]
      exact ⟨hw.2.2.2.1, hw.2.2.2.2.1⟩
  unfold parseInt
  have hdw : ((v :: t).map Nat.digitChar).dropWhile isWhiteSpace = (v :: t).map Nat.digitChar := by
    rw [List.map_cons, List.dropWhile_cons, hv.1]
    rfl
  rw [hdw]
  have hsp : splitSign ((v :: t).map Nat.digitChar) = (false, (v :: t).map Nat.digitChar) := by
    rw [List.map_cons]
    exact splitSign_of_ne _ _ hv.2.1 hv.2.2.1
  rw [hsp]
  simp only [hstrip, takeWhile_all _ _ hall]
  rw [if_neg (by simp)]
  simp only [Bool.false_eq_true, if_false, digitsValue, valueOfDigits]
  rw [foldl_digitVal 16 (v :: t) 0 h]

theorem bitAnd_mask (w : Nat) (hw : w < 2 ^ 32) :
    bitAnd (some (w : Int)) (some 2147483647) = ((w % 2 ^ 31 : Nat) : Int) := by
  unfold bitAnd
  have h1 : (((some (w : Int)).getD 0) % 2 ^ 32).toNat = w := by
    simp only [Option.getD_some]
    omega
  have h2 : (((some (2147483647 : Int)).getD 0) % 2 ^ 32).toNat = 2 ^ 31 - 1 := by
    simp only [Option.getD_some]
    omega
  have h3 : Nat.land w (2 ^ 31 - 1) = w % 2 ^ 31 := Nat.and_pow_two_sub_one_eq_mod w 31
  simp only [h1, h2, h3]
  rw [if_pos (Nat.mod_lt _ (by norm_num))]

theorem length_twenty (d : List Nat) (h : d.length = 20) :
    ∃ a0 a1 a2 a3 a4 a5 a6 a7 a8 a9 b0 b1 b2 b3 b4 b5 b6 b7 b8 b9,
      d = [a0, a1, a2, a3, a4, a5, a6, a7, a8, a9, b0, b1, b2, b3, b4, b5, b6, b7, b8, b9] := by
  match d, h with
  | [a0, a1, a2, a3, a4, a5, a6, a7, a8, a9, b0, b1, b2, b3, b4, b5, b6, b7, b8, b9], _ =>
    exact ⟨a0, a1, a2, a3, a4, a5, a6, a7, a8, a9, b0, b1, b2, b3, b4, b5, b6, b7, b8, b9, rfl⟩

theorem parseInt_hex1 (a : Nat) (ha : a < 16) :
    parseInt [Nat.digitChar a] 16 = some (a : Int) := by
  have := parseInt_hexDigits [a] (by simp) (by simpa using ha)
  simpa [valueOfDigits] using this

theorem truncate_window (a b c e : Nat) (ha : a < 256) (hb : b < 256) (hc : c < 256)
    (he : e < 256) :
    bitAnd (parseInt [Nat.digitChar (a / 16 % 16), Nat.digitChar (a % 16),
        Nat.digitChar (b / 16 % 16), Nat.digitChar (b % 16), Nat.digitChar (c / 16 % 16),
        Nat.digitChar (c % 16), Nat.digitChar (e / 16 % 16), Nat.digitChar (e % 16)] 16)
      (some 2147483647)
      = ((((a * 2 ^ 24 + b * 2 ^ 16 + c * 2 ^ 8 + e) % 2 ^ 31 : Nat)) : Int) := by
  have := parseInt_hexDigits [a / 16 % 16, a % 16, b / 16 % 16, b % 16, c / 16 % 16, c % 16,
    e / 16 % 16, e % 16] (by simp) (by
      intro v hv
      simp only [List.mem_cons, List.mem_singleton, List.not_mem_nil, or_false] at hv
      omega)
  simp only [List.map_cons, List.map_nil] at this
  rw [this]
  have hval : valueOfDigits 16 [a / 16 % 16, a % 16, b / 16 % 16, b % 16, c / 16 % 16, c % 16,
      e / 16 % 16, e % 16] = a * 2 ^ 24 + b * 2 ^ 16 + c * 2 ^ 8 + e := by
    simp only [valueOfDigits, List.foldl_cons, List.foldl_nil]
    omega
  rw [hval, bitAnd_mask _ (by omega)]

theorem truncatedValue_bytes (d : List Nat) (hlen : d.length = 20) (hb : ∀ b ∈ d, b < 256) :
    truncatedValue (hexEncode d) = ((rfc4226Truncate d : Nat) : Int) := by
  obtain ⟨a0, a1, a2, a3, a4, a5, a6, a7, a8, a9, b0, b1, b2, b3, b4, b5, b6, b7, b8, b9, rfl⟩ :=
    length_twenty d hlen
  simp only [List.mem_cons, List.mem_singleton, List.not_mem_nil, or_false, forall_eq_or_imp,
    forall_eq] at hb
  obtain ⟨h0, h1, h2, h3, h4, h5, h6, h7, h8, h9, g0, g1, g2, g3, g4, g5, g6, g7, g8, g9⟩ := hb
  unfold truncatedValue rfc4226Truncate
  have hlast : sliceNeg 1 (hexEncode
      [a0, a1, a2, a3, a4, a5, a6, a7, a8, a9, b0, b1, b2, b3, b4, b5, b6, b7, b8, b9])
      = [Nat.digitChar (b9 % 16)] := rfl
  simp only [hlast, parseInt_hex1 (b9 % 16) (Nat.mod_lt _ (by norm_num)), Option.getD_some]
  have ho : b9 % 16 < 16 := Nat.mod_lt _ (by norm_num)
  have hstart : ((((b9 % 16 : Nat) : Int)) * 2).toNat = 2 * (b9 % 16) := by omega
  rw [hstart]
  simp only [List.getD_cons_succ, List.getD_cons_zero]
  generalize b9 % 16 = o at ho ⊢
  interval_cases o
  all_goals
    simp only [substr, hexEncode, List.flatMap_cons, List.flatMap_nil, hexByte, List.cons_append,
      List.nil_append, List.drop_succ_cons, List.drop_zero, List.take_succ_cons, List.take_zero,
      Nat.reduceMul, Nat.reduceAdd, List.getD_cons_succ, List.getD_cons_zero]
  all_goals exact truncate_window _ _ _ _ (by assumption) (by assumption) (by assumption) (by assumption)

theorem toDigitsCore_append (b : Nat) : ∀ (f n : Nat) (ds : List Char),
    Nat.toDigitsCore b f n ds = Nat.toDigitsCore b f n [] ++ ds := by
  intro f
  induction f with
  | zero => intro n ds; simp [Nat.toDigitsCore]
  | succ f ih =>
    intro n ds
    simp only [Nat.toDigitsCore]
    split
    · simp
    · rw [ih (n / b) (_ :: ds), ih (n / b) [_]]
      simp

theorem toDigitsCore_fuel (b : Nat) (hb : 2 ≤ b) : ∀ (n f1 f2 : Nat), n < f1 → n < f2 →
    Nat.toDigitsCore b f1 n [] = Nat.toDigitsCore b f2 n [] := by
  intro n
  induction n using Nat.strong_induction_on with
  | _ n ih =>
    intro f1 f2 h1 h2
    obtain ⟨g1, rfl⟩ : ∃ g, f1 = g + 1 := ⟨f1 - 1, by omega⟩
    obtain ⟨g2, rfl⟩ : ∃ g, f2 = g + 1 := ⟨f2 - 1, by omega⟩
    simp only [Nat.toDigitsCore]
    split
    · rfl
    · rename_i hne
      have hpos : 0 < n := by
        rcases Nat.eq_zero_or_pos n with h | h
        · subst h; simp at hne
        · exact h
      have hlt : n / b < n := Nat.div_lt_self hpos (by omega)
      rw [toDigitsCore_append b g1, toDigitsCore_append b g2,
        ih (n / b) hlt g1 g2 (by omega) (by omega)]

theorem toDigits_of_lt (b n : Nat) (h : n < b) : Nat.toDigits b n = [Nat.digitChar n] := by
  simp only [Nat.toDigits, Nat.toDigitsCore, Nat.div_eq_of_lt h, Nat.mod_eq_of_lt h, if_true]

theorem toDigits_of_ge (b n : Nat) (hb : 2 ≤ b) (h : b ≤ n) :
    Nat.toDigits b n = Nat.toDigits b (n / b) ++ [Nat.digitChar (n % b)] := by
  have hq : n / b ≠ 0 := by
    have : 0 < n / b := Nat.div_pos h (by omega)
    omega
  have hlt : n / b < n := Nat.div_lt_self (by omega) (by omega)
  show Nat.toDigitsCore b (n + 1) n [] = Nat.toDigitsCore b (n / b + 1) (n / b) [] ++ _
  rw [Nat.toDigitsCore]
  simp only [hq, if_false]
  rw [toDigitsCore_append, toDigitsCore_fuel b hb (n / b) n (n / b + 1) hlt (by omega)]

theorem fixedDigits_length (b : Nat) : ∀ (k n : Nat), (fixedDigits b k n).length = k
  | 0, _ => rfl
  | k + 1, n => by simp [fixedDigits, fixedDigits_length b k]

theorem fixedDigits_lt (b : Nat) (hb : 0 < b) : ∀ (k n : Nat), ∀ v ∈ fixedDigits b k n, v < b
  | 0, _, v, hv => by simp [fixedDigits] at hv
  | k + 1, n, v, hv => by
    simp only [fixedDigits, List.mem_append, List.mem_singleton] at hv
    rcases hv with hv | rfl
    · exact fixedDigits_lt b hb k _ v hv
    · exact Nat.mod_lt _ hb

theorem fixedDigits_zero (b : Nat) : ∀ (k : Nat), fixedDigits b k 0 = List.replicate k 0
  | 0 => rfl
  | k + 1 => by
    simp only [fixedDigits, Nat.zero_div, Nat.zero_mod, fixedDigits_zero b k]
    exact (List.replicate_succ' ..).symm

/-- Left-padding with zeros: the text of `n < b ^ k` in radix `b` preceded by zeros is the
list of its `k` digits. -/
theorem toDigits_padded (b : Nat) (hb : 2 ≤ b) : ∀ (k n : Nat), 0 < k → n < b ^ k →
    ∃ z, zeros z ++ Nat.toDigits b n = (fixedDigits b k n).map Nat.digitChar
  | 0, _, hk, _ => absurd hk (by omega)
  | k + 1, n, _, hn => by
    by_cases hlt : n < b
    · refine ⟨k, ?_⟩
      rw [toDigits_of_lt b n hlt]
      simp only [fixedDigits, Nat.div_eq_of_lt hlt, Nat.mod_eq_of_lt hlt, fixedDigits_zero,
        List.map_append, List.map_replicate, List.map_cons, List.map_nil, zeros]
      rfl
    · have hk : 0 < k := by
        rcases Nat.eq_zero_or_pos k with h | h
        · subst h; simp at hn; omega
        · exact h
      have hq : n / b < b ^ k := by
        rw [Nat.div_lt_iff_lt_mul (by omega)]
        rw [Nat.pow_succ] at hn
        exact hn
      obtain ⟨z, hz⟩ := toDigits_padded b hb k (n / b) hk hq
      refine ⟨z, ?_⟩
      rw [toDigits_of_ge b n hb (by omega), ← List.append_assoc, hz]
      simp [fixedDigits]

theorem sliceNeg_padded (k z : Nat) (T F : List Char) (h : zeros z ++ T = F)
    (hF : F.length = k) : sliceNeg k (zeros k ++ T) = F := by
  have hT : T.length + z = k := by
    have := congrArg List.length h
    simp only [zeros, List.length_append, List.length_replicate] at this
    omega
  have hz : zeros k = zeros (k - z) ++ zeros z := by
    simp only [zeros, List.append_replicate_replicate]
    congr 1; omega
  unfold sliceNeg
  rw [hz, List.append_assoc, h]
  have : (zeros (k - z) ++ F).length - k = (zeros (k - z)).length := by
    simp [zeros, hF]
  rw [this, List.drop_left]

theorem valueOfDigits_append (b : Nat) (xs : List Nat) (y : Nat) :
    valueOfDigits b (xs ++ [y]) = b * valueOfDigits b xs + y := by
  simp [valueOfDigits, List.foldl_append]

theorem valueOfDigits_fixedDigits (b : Nat) (hb : 0 < b) : ∀ (k n : Nat),
    valueOfDigits b (fixedDigits b k n) = n % b ^ k
  | 0, n => by simp [fixedDigits, valueOfDigits, Nat.mod_one]
  | k + 1, n => by
    rw [fixedDigits, valueOfDigits_append, valueOfDigits_fixedDigits b hb k (n / b),
      Nat.pow_succ, Nat.mul_comm (b ^ k) b, Nat.mod_mul, Nat.add_comm]

theorem counterHex_eq (c : Nat) (hc : c < 2 ^ 64) :
    counterHex c = (fixedDigits 16 16 c).map Nat.digitChar ∧
    ∃ z, counterHex c = zeros z ++ Nat.toDigits 16 c := by
  obtain ⟨z, hz⟩ := toDigits_padded 16 (by norm_num) 16 c (by norm_num) (by norm_num; omega)
  have hts : toStringRadix (c : Int) 16 = Nat.toDigits 16 c := by
    unfold toStringRadix
    rw [if_neg (by omega)]
    rfl
  have h := sliceNeg_padded 16 z _ _ hz (by rw [List.length_map, fixedDigits_length])
  unfold counterHex
  rw [hts, h]
  exact ⟨rfl, z, hz.symm⟩

theorem bufferFromHex_digits : ∀ (vs : List Nat), (∀ v ∈ vs, v < 16) →
    bufferFromHex (vs.map Nat.digitChar) = pairUp vs
  | a :: b :: r, h => by
    have ha := hexDigit_facts a (h a (by simp))
    have hb := hexDigit_facts b (h b (by simp))
    simp only [List.map_cons, bufferFromHex, ha.2.2.2.2.2.1, hb.2.2.2.2.2.1, ha.2.2.2.2.2.2,
      hb.2.2.2.2.2.2, Bool.and_self, if_true, Option.getD_some, pairUp]
    rw [bufferFromHex_digits r (fun x hx => h x (by simp [hx]))]
  | [], _ => rfl
  | [_], _ => rfl

theorem pairUp_append : ∀ (A : List Nat) (x y : Nat), A.length % 2 = 0 →
    pairUp (A ++ [x, y]) = pairUp A ++ [16 * x + y]
  | [], _, _, _ => rfl
  | [_], _, _, h => by simp at h
  | a :: b :: r, x, y, h => by
    have ih := pairUp_append r x y (by simp only [List.length_cons] at h; omega)
    show (16 * a + b) :: pairUp (r ++ [x, y]) = (16 * a + b) :: (pairUp r ++ [16 * x + y])
    rw [ih]

theorem pairUp_fixedDigits16 : ∀ (m n : Nat),
    pairUp (fixedDigits 16 (2 * m) n) = fixedDigits 256 m n
  | 0, _ => rfl
  | m + 1, n => by
    have e : 2 * (m + 1) = 2 * m + 1 + 1 := by omega
    rw [e]
    simp only [fixedDigits, List.append_assoc, List.cons_append, List.nil_append]
    rw [pairUp_append _ _ _ (by rw [fixedDigits_length]; omega), pairUp_fixedDigits16 m]
    have e1 : n / 16 / 16 = n / 256 := by omega
    have e2 : 16 * (n / 16 % 16) + n % 16 = n % 256 := by omega
    rw [e1, e2]

theorem pairUp_fixedDigits (c : Nat) (hc : c < 2 ^ 64) :
    (pairUp (fixedDigits 16 16 c)).length = 8 ∧ (∀ b ∈ pairUp (fixedDigits 16 16 c), b < 256) ∧
    valueOfDigits 256 (pairUp (fixedDigits 16 16 c)) = c := by
  rw [show (16 : Nat) = 2 * 8 from rfl, pairUp_fixedDigits16 8 c]
  refine ⟨fixedDigits_length _ _ _, fixedDigits_lt 256 (by norm_num) 8 c, ?_⟩
  rw [valueOfDigits_fixedDigits 256 (by norm_num)]
  exact Nat.mod_eq_of_lt (by norm_num; omega)

theorem randomSymbol_of_unit (r : ℚ) (h0 : 0 ≤ r) (h1 : r < 1) :
    (⌊r * 32⌋).toNat < 32 ∧
    randomSymbol r = some (base32chars.getD (⌊r * 32⌋).toNat 'A') := by
  have hlo : (0 : ℤ) ≤ ⌊r * 32⌋ := Int.floor_nonneg.mpr (by positivity)
  have hhi : ⌊r * 32⌋ < 32 := by
    rw [Int.floor_lt]
    push_cast
    linarith
  have hk : (⌊r * 32⌋).toNat < 32 := by omega
  refine ⟨hk, ?_⟩
  unfold randomSymbol
  rw [if_neg (by omega), List.getD_eq_getElem?_getD]
  have hlen : (⌊r * 32⌋).toNat < base32chars.length := by
    have : base32chars.length = 32 := rfl
    omega
  rw [List.getElem?_eq_getElem hlen]
  rfl

theorem randomBase32_eq (draws : Nat → ℚ) (length : Nat)
    (hd : ∀ i, 0 ≤ draws i ∧ draws i < 1) :
    randomBase32 draws length =
      (List.range (if length % 2 = 0 then length else length + 1)).map
        (fun i => base32chars.getD (⌊draws i * 32⌋).toNat 'A') := by
  unfold randomBase32
  simp only
  generalize (if length % 2 = 0 then length else length + 1) = L
  induction L with
  | zero => rfl
  | succ n ih =>
    rw [List.range_succ, List.map_append, List.flatMap_append, ih, List.map_append]
    congr 1
    simp only [List.map_cons, List.map_nil, List.flatMap_cons, List.flatMap_nil, List.append_nil,
      (randomSymbol_of_unit (draws n) (hd n).1 (hd n).2).2, Option.toList]

theorem pairUp_length : ∀ (L : List Nat), (pairUp L).length = L.length / 2
  | a :: b :: r => by
    simp only [pairUp, List.length_cons, pairUp_length r]; omega
  | [] => rfl
  | [_] => by simp [pairUp]

theorem base32tohex_length_of_valid (s : List Char) (hs : ∀ c ∈ s, c ∈ base32chars) :
    (base32tohex s).length = 5 * s.length / 4 := by
  rw [base32tohex_eq_nibbles s hs, List.length_map, nibbleList_length, streamBits_length]

theorem randomBase32_zero_draws : randomBase32 (fun _ => 0) 4 = "AAAA".toList := by
  rw [randomBase32_eq _ _ (fun _ => by norm_num)]
  simp [List.range_succ]
  decide

/-! ### HMAC-SHA1 -/

theorem bytesBE_length : ∀ (k n : Nat), (bytesBE k n).length = k
  | 0, _ => rfl
  | k + 1, n => by simp [bytesBE, bytesBE_length k]

theorem bytesBE_lt : ∀ (k n : Nat), ∀ b ∈ bytesBE k n, b < 256
  | 0, _, b, hb => by simp [bytesBE] at hb
  | k + 1, n, b, hb => by
    simp only [bytesBE, List.mem_append, List.mem_singleton] at hb
    rcases hb with hb | rfl
    · exact bytesBE_lt k _ b hb
    · omega

/-- A digest of SHA-1, hence of HMAC-SHA1, is 20 bytes. -/
theorem sha1_digest (msg : List Nat) : (sha1 msg).length = 20 ∧ ∀ b ∈ sha1 msg, b < 256 := by
  unfold sha1
  simp only [List.length_append, bytesBE_length, List.mem_append]
  refine ⟨trivial, ?_⟩
  intro b hb
  rcases hb with (((hb | hb) | hb) | hb) | hb <;> exact bytesBE_lt _ _ b hb

theorem hmacSha1_digest (key msg : List Nat) :
    (hmacSha1 key msg).length = 20 ∧ ∀ b ∈ hmacSha1 key msg, b < 256 :=
  sha1_digest _

/-- The test vector `abc` of RFC 3174. -/
theorem sha1_abc : sha1 [0x61, 0x62, 0x63] =
    [0xa9, 0x99, 0x3e, 0x36, 0x47, 0x06, 0x81, 0x6a, 0xba, 0x3e, 0x25, 0x71, 0x78, 0x50, 0xc2,
     0x6c, 0x9c, 0xd0, 0xd8, 0x9d] := by
  decide

/-- The SHA-1 test vector of RFC 6238 at 59 s (`94287082`, of which `getOTP` keeps the last 6
digits) for the secret `12345678901234567890`, in base32. -/
theorem getOTP_rfc6238_vector :
    getOTP hmacSha1 59000 "GEZDGNBVGY3TQOJQGEZDGNBVGY3TQOJQ".toList = "287082".toList := by
  decide

/-! ### Case, digits, key bytes, percent-encoding -/

theorem symbolBits_recase : ∀ c ∈ secretChars,
    symbolBits c = symbolBits (if 97 ≤ c.toNat ∧ c.toNat ≤ 122 then Char.ofNat (c.toNat - 32) else c) ∧
    symbolBits c = symbolBits (if 65 ≤ c.toNat ∧ c.toNat ≤ 90 then Char.ofNat (c.toNat + 32) else c) ∧
    (if 97 ≤ c.toNat ∧ c.toNat ≤ 122 then Char.ofNat (c.toNat - 32) else c) ∈ base32chars := by
  decide

theorem base32bits_recase (s : List Char) (hs : ∀ c ∈ s, c ∈ secretChars) :
    base32bits s = base32bits (asciiUpper s) ∧ base32bits s = base32bits (asciiLower s) ∧
    ∀ c ∈ asciiUpper s, c ∈ base32chars := by
  simp only [base32bits_eq_flatMap, asciiUpper, asciiLower]
  induction s with
  | nil => simp
  | cons c t ih =>
    have hc := symbolBits_recase c (hs c (by simp))
    have ht := ih (fun x hx => hs x (by simp [hx]))
    refine ⟨?_, ?_, ?_⟩
    · simp only [List.map_cons, List.flatMap_cons, ← hc.1, ← ht.1]
    · simp only [List.map_cons, List.flatMap_cons, ← hc.2.1, ← ht.2.1]
    · intro x hx
      simp only [List.map_cons, List.mem_cons] at hx
      rcases hx with rfl | hx
      · exact hc.2.2
      · exact ht.2.2 x hx

theorem base32tohex_of_bits (s t : List Char) (h : base32bits s = base32bits t) :
    base32tohex s = base32tohex t := by
  unfold base32tohex
  simp only [h]


theorem parseInt_window (a b c e : Nat) (ha : a < 256) (hb : b < 256) (hc : c < 256)
    (he : e < 256) :
    parseInt (hexEncode [a, b, c, e]) 16
      = some ((a * 2 ^ 24 + b * 2 ^ 16 + c * 2 ^ 8 + e : Nat) : Int) := by
  have := parseInt_hexDigits [a / 16 % 16, a % 16, b / 16 % 16, b % 16, c / 16 % 16, c % 16,
    e / 16 % 16, e % 16] (by simp) (by
      intro v hv
      simp only [List.mem_cons, List.mem_singleton, List.not_mem_nil, or_false] at hv
      omega)
  simp only [List.map_cons, List.map_nil] at this
  have hval : valueOfDigits 16 [a / 16 % 16, a % 16, b / 16 % 16, b % 16, c / 16 % 16, c % 16,
      e / 16 % 16, e % 16] = a * 2 ^ 24 + b * 2 ^ 16 + c * 2 ^ 8 + e := by
    simp only [valueOfDigits, List.foldl_cons, List.foldl_nil]
    omega
  rw [hval] at this
  exact this

theorem getD_lt_of_forall (d : List Nat) (hb : ∀ b ∈ d, b < 256) (i : Nat) :
    d.getD i 0 < 256 := by
  by_cases hi : i < d.length
  · rw [List.getD_eq_getElem _ _ hi]
    exact hb _ (List.getElem_mem _)
  · rw [List.getD_eq_default _ _ (by omega)]
    omega

theorem window_of_digest (d : List Nat) (hlen : d.length = 20) (o : Nat) (ho : o < 16) :
    sliceNeg 1 (hexEncode d) = [Nat.digitChar (d.getD 19 0 % 16)] ∧
    substr (hexEncode d) (2 * o) 8
      = hexEncode [d.getD o 0, d.getD (o + 1) 0, d.getD (o + 2) 0, d.getD (o + 3) 0] := by
  obtain ⟨a0, a1, a2, a3, a4, a5, a6, a7, a8, a9, b0, b1, b2, b3, b4, b5, b6, b7, b8, b9, rfl⟩ :=
    length_twenty d hlen
  refine ⟨rfl, ?_⟩
  interval_cases o <;> rfl


theorem isDigitOf_digitChar (radix v : Nat) (hv : v < radix) (h16 : v < 16) :
    isDigitOf radix (Nat.digitChar v) = true := by
  unfold isDigitOf
  rw [(hexDigit_facts v h16).2.2.2.2.2.2]
  simpa using hv

theorem parseInt_digits (radix : Nat) (hr : radix ≤ 16) (vs : List Nat) (hne : vs ≠ [])
    (h : ∀ v ∈ vs, v < radix) :
    parseInt (vs.map Nat.digitChar) radix = some ((valueOfDigits radix vs : Nat) : Int) := by
  have h16 : ∀ v ∈ vs, v < 16 := fun v hv => Nat.lt_of_lt_of_le (h v hv) hr
  obtain ⟨v, t, rfl⟩ : ∃ v t, vs = v :: t := by
    cases vs with
    | nil => exact absurd rfl hne
    | cons v t => exact ⟨v, t, rfl⟩
  have hv := hexDigit_facts v (h16 v (by simp))
  have hall : ∀ c ∈ (v :: t).map Nat.digitChar, isDigitOf radix c = true := by
    intro c hc
    rw [List.mem_map] at hc
    obtain ⟨w, hw, rfl⟩ := hc
    exact isDigitOf_digitChar radix w (h w hw) (h16 w hw)
  have hstrip : stripHexMark radix ((v :: t).map Nat.digitChar)
      = (v :: t).map Nat.digitChar := by
    apply stripHexMark_of_ne
    intro c r hs
    cases t with
    | nil => simp at hs
    | cons w t2 =>
      simp only [List.map_cons, List.cons.injEq] at hs
      have hw := hexDigit_facts w (h16 w (by simp))
      rw [← hs.2.1]
      exact ⟨hw.2.2.2.1, hw.2.2.2.2.1⟩
  unfold parseInt
  have hdw : ((v :: t).map Nat.digitChar).dropWhile isWhiteSpace = (v :: t).map Nat.digitChar := by
    rw [List.map_cons, List.dropWhile_cons, hv.1]
    rfl
  rw [hdw]
  have hsp : splitSign ((v :: t).map Nat.digitChar) = (false, (v :: t).map Nat.digitChar) := by
    rw [List.map_cons]
    exact splitSign_of_ne _ _ hv.2.1 hv.2.2.1
  rw [hsp]
  simp only [hstrip, takeWhile_all _ _ hall]
  rw [if_neg (by simp)]
  simp only [Bool.false_eq_true, if_false, digitsValue, valueOfDigits]
  rw [foldl_digitVal radix (v :: t) 0 h16]

theorem toDigits_digits (b : Nat) (hb : 2 ≤ b) : ∀ n : Nat,
    ∃ vs : List Nat, vs ≠ [] ∧ (∀ v ∈ vs, v < b) ∧ Nat.toDigits b n = vs.map Nat.digitChar ∧
      valueOfDigits b vs = n := by
  intro n
  induction n using Nat.strong_induction_on with
  | _ n ih =>
    by_cases hlt : n < b
    · refine ⟨[n], by simp, by simpa using hlt, ?_, ?_⟩
      · rw [toDigits_of_lt b n hlt]; rfl
      · simp [valueOfDigits]
    · have hq : n / b < n := Nat.div_lt_self (by omega) (by omega)
      obtain ⟨vs, _, hvs, hT, hval⟩ := ih (n / b) hq
      refine ⟨vs ++ [n % b], by simp, ?_, ?_, ?_⟩
      · intro v hv
        rw [List.mem_append, List.mem_singleton] at hv
        rcases hv with hv | rfl
        · exact hvs v hv
        · exact Nat.mod_lt _ (by omega)
      · rw [toDigits_of_ge b n hb (by omega), hT, List.map_append]; rfl
      · rw [valueOfDigits_append, hval]
        exact Nat.div_add_mod n b

theorem foldl_digits_acc (b : Nat) : ∀ (ys : List Nat) (acc : Nat),
    ys.foldl (fun acc v => b * acc + v) acc
      = acc * b ^ ys.length + ys.foldl (fun acc v => b * acc + v) 0
  | [], acc => by simp
  | y :: t, acc => by
    rw [List.foldl_cons, List.foldl_cons, foldl_digits_acc b t (b * acc + y),
      foldl_digits_acc b t (b * 0 + y), List.length_cons, Nat.pow_succ]
    ring

theorem valueOfDigits_split (b : Nat) (xs ys : List Nat) :
    valueOfDigits b (xs ++ ys) = valueOfDigits b xs * b ^ ys.length + valueOfDigits b ys := by
  unfold valueOfDigits
  rw [List.foldl_append, foldl_digits_acc]

theorem valueOfDigits_lt (b : Nat) : ∀ (vs : List Nat), (∀ v ∈ vs, v < b) →
    valueOfDigits b vs < b ^ vs.length
  | [], _ => by simp [valueOfDigits]
  | v :: t, h => by
    have ih := valueOfDigits_lt b t (fun x hx => h x (by simp [hx]))
    have hv := h v (by simp)
    have e : valueOfDigits b (v :: t) = v * b ^ t.length + valueOfDigits b t := by
      have := valueOfDigits_split b [v] t
      simpa [valueOfDigits] using this
    rw [e, List.length_cons, Nat.pow_succ]
    calc v * b ^ t.length + valueOfDigits b t
        < v * b ^ t.length + b ^ t.length := by omega
      _ = (v + 1) * b ^ t.length := by ring
      _ ≤ b * b ^ t.length := Nat.mul_le_mul_right _ hv
      _ = b ^ t.length * b := by ring

theorem valueOfDigits_suffix (b : Nat) (hb : 0 < b) (k : Nat) (vs : List Nat)
    (h : ∀ v ∈ vs, v < b) :
    valueOfDigits b (vs.drop (vs.length - k)) = valueOfDigits b vs % b ^ k := by
  by_cases hk : vs.length ≤ k
  · have h0 : vs.length - k = 0 := by omega
    rw [h0, List.drop_zero]
    have hlt := valueOfDigits_lt b vs h
    have hle : b ^ vs.length ≤ b ^ k := Nat.pow_le_pow_right hb hk
    exact (Nat.mod_eq_of_lt (by omega)).symm
  · have hsplit := valueOfDigits_split b (vs.take (vs.length - k)) (vs.drop (vs.length - k))
    rw [List.take_append_drop] at hsplit
    have hlen : (vs.drop (vs.length - k)).length = k := by
      rw [List.length_drop]; omega
    have hlt := valueOfDigits_lt b (vs.drop (vs.length - k))
      (fun v hv => h v (List.mem_of_mem_drop hv))
    rw [hlen] at hsplit hlt
    rw [hsplit, Nat.mul_add_mod_of_lt hlt]

theorem sliceNeg_map (k : Nat) (vs : List Nat) :
    sliceNeg k (vs.map Nat.digitChar) = (vs.drop (vs.length - k)).map Nat.digitChar := by
  unfold sliceNeg
  rw [List.length_map, List.map_drop]

/-- The last `k` characters of the text of `n` in radix `b` read as `n % b ^ k`. -/
theorem parseInt_sliceNeg_toDigits (b : Nat) (hb : 2 ≤ b) (hb16 : b ≤ 16) (k : Nat) (hk : 0 < k)
    (n : Nat) : parseInt (sliceNeg k (Nat.toDigits b n)) b = some ((n % b ^ k : Nat) : Int) := by
  obtain ⟨vs, hne, hvs, hT, hval⟩ := toDigits_digits b hb n
  rw [hT, sliceNeg_map]
  have hne2 : vs.drop (vs.length - k) ≠ [] := by
    intro h
    have := congrArg List.length h
    rw [List.length_drop] at this
    have : 0 < vs.length := List.length_pos.mpr hne
    simp at *
    omega
  rw [parseInt_digits b hb16 _ hne2 (fun v hv => hvs v (List.mem_of_mem_drop hv)),
    valueOfDigits_suffix b (by omega) k vs hvs, hval]

theorem pairUp_getD : ∀ (L : List Nat) (j : Nat), j < L.length / 2 →
    (pairUp L).getD j 0 = 16 * L.getD (2 * j) 0 + L.getD (2 * j + 1) 0
  | a :: b :: r, 0, _ => by simp [pairUp]
  | a :: b :: r, j + 1, h => by
    have ih := pairUp_getD r j (by simp only [List.length_cons] at h; omega)
    simp only [pairUp, List.getD_cons_succ, ih, Nat.mul_add, Nat.mul_one]
  | [], j, h => by simp at h
  | [_], j, h => by simp only [List.length_cons, List.length_nil] at h; omega

theorem key_of_valid (s : List Char) (hs : ∀ c ∈ s, c ∈ base32chars) :
    bufferFromHex (base32tohex s) = pairUp (nibbleList (streamBits s)) := by
  rw [base32tohex_eq_nibbles s hs, bufferFromHex_digits _ (nibbleList_lt _ (streamBits_lt_two s))]

theorem key_length_of_valid (s : List Char) (hs : ∀ c ∈ s, c ∈ base32chars) :
    (bufferFromHex (base32tohex s)).length = 5 * s.length / 8 := by
  rw [key_of_valid s hs, pairUp_length, nibbleList_length, streamBits_length]
  omega

theorem key_getD_of_valid (s : List Char) (hs : ∀ c ∈ s, c ∈ base32chars) (j : Nat)
    (hj : j < 5 * s.length / 8) :
    (bufferFromHex (base32tohex s)).getD j 0 = streamByte s j := by
  rw [key_of_valid s hs]
  have hB := streamBits_length s
  have hN := nibbleList_length (streamBits s)
  rw [pairUp_getD _ j (by rw [hN, hB]; omega),
    nibbleList_getD _ (2 * j) (by rw [hB]; omega),
    nibbleList_getD _ (2 * j + 1) (by rw [hB]; omega)]
  unfold streamByte
  have e1 : 4 * (2 * j) = 8 * j := by omega
  have e2 : 4 * (2 * j + 1) = 8 * j + 4 := by omega
  have e3 : 8 * j + 4 + 1 = 8 * j + 5 := by omega
  have e4 : 8 * j + 4 + 2 = 8 * j + 6 := by omega
  have e5 : 8 * j + 4 + 3 = 8 * j + 7 := by omega
  rw [e1, e2, e3, e4, e5]
  omega

theorem pairUp_hexNibbles : ∀ (bytes : List Nat) (k : Nat), k ≤ 1 → (∀ b ∈ bytes, b < 256) →
    pairUp (bytes.flatMap (fun b => [b / 16 % 16, b % 16]) ++ List.replicate k 0) = bytes
  | [], k, hk, _ => by
    interval_cases k <;> rfl
  | x :: t, k, hk, h => by
    have ih := pairUp_hexNibbles t k hk (fun b hb => h b (by simp [hb]))
    have hx := h x (by simp)
    have e : 16 * (x / 16 % 16) + x % 16 = x := by omega
    show (16 * (x / 16 % 16) + x % 16)
        :: pairUp (t.flatMap (fun b => [b / 16 % 16, b % 16]) ++ List.replicate k 0) = x :: t
    rw [ih, e]

theorem hexEncode_zeros (bytes : List Nat) (k : Nat) :
    hexEncode bytes ++ zeros k
      = (bytes.flatMap (fun b => [b / 16 % 16, b % 16]) ++ List.replicate k 0).map
          Nat.digitChar := by
  rw [List.map_append, List.map_replicate]
  congr 1
  induction bytes with
  | nil => rfl
  | cons x t ih =>
    simp only [hexEncode, List.flatMap_cons, List.map_append] at ih ⊢
    rw [ih]
    rfl

theorem key_of_rfc4648Encode (bytes : List Nat) (hb : ∀ b ∈ bytes, b < 256) :
    bufferFromHex (base32tohex (rfc4648Encode bytes)) = bytes := by
  obtain ⟨k, hk, h⟩ := base32tohex_rfc4648Encode bytes
  rw [h, hexEncode_zeros, bufferFromHex_digits, pairUp_hexNibbles bytes k hk hb]
  intro v hv
  simp only [List.mem_append, List.mem_flatMap, List.mem_cons, List.mem_singleton,
    List.not_mem_nil, or_false, List.mem_replicate] at hv
  rcases hv with ⟨b, _, hv⟩ | hv
  · omega
  · omega

theorem char_valid (c : Char) : Nat.isValidChar c.toNat := c.valid

theorem utf8Step_ascii (acc : List Char) (b : Nat) (h : b < 0x80) :
    utf8Step (some (acc, 0, 0, 0)) b = some (acc ++ [Char.ofNat b], 0, 0, 0) := by
  simp only [utf8Step, if_true, if_pos h]

theorem utf8Step_lead2 (acc : List Char) (b : Nat) (h0 : 0xC0 ≤ b) (h1 : b < 0xE0) :
    utf8Step (some (acc, 0, 0, 0)) b = some (acc, 1, b - 0xC0, 0x80) := by
  simp only [utf8Step, if_true]
  rw [if_neg (by omega), if_neg (by omega), if_pos h1]

theorem utf8Step_lead3 (acc : List Char) (b : Nat) (h0 : 0xE0 ≤ b) (h1 : b < 0xF0) :
    utf8Step (some (acc, 0, 0, 0)) b = some (acc, 2, b - 0xE0, 0x800) := by
  simp only [utf8Step, if_true]
  rw [if_neg (by omega), if_neg (by omega), if_neg (by omega), if_pos h1]

theorem utf8Step_lead4 (acc : List Char) (b : Nat) (h0 : 0xF0 ≤ b) (h1 : b < 0xF8) :
    utf8Step (some (acc, 0, 0, 0)) b = some (acc, 3, b - 0xF0, 0x10000) := by
  simp only [utf8Step, if_true]
  rw [if_neg (by omega), if_neg (by omega), if_neg (by omega), if_neg (by omega), if_pos h1]

theorem utf8Step_cont (acc : List Char) (need cp lo b : Nat) (hneed : 2 ≤ need)
    (h0 : 0x80 ≤ b) (h1 : b < 0xC0) :
    utf8Step (some (acc, need, cp, lo)) b = some (acc, need - 1, cp * 64 + (b - 0x80), lo) := by
  have hcont : isCont b = true := by simp only [isCont, decide_eq_true_eq]; omega
  simp only [utf8Step]
  rw [if_neg (by omega), if_pos hcont, if_neg (by omega)]

theorem utf8Step_last (acc : List Char) (cp lo b n : Nat) (h0 : 0x80 ≤ b) (h1 : b < 0xC0)
    (hn : cp * 64 + (b - 0x80) = n) (hlo : lo ≤ n) (hv : Nat.isValidChar n) :
    utf8Step (some (acc, 1, cp, lo)) b = some (acc ++ [Char.ofNat n], 0, 0, 0) := by
  have hcont : isCont b = true := by simp only [isCont, decide_eq_true_eq]; omega
  simp only [utf8Step]
  rw [if_neg (by omega), if_pos hcont, if_pos trivial, hn, if_pos ⟨hlo, hv⟩]

theorem utf8Step_encode (c : Char) (acc : List Char) :
    (utf8Encode c).foldl utf8Step (some (acc, 0, 0, 0)) = some (acc ++ [c], 0, 0, 0) := by
  have hv := char_valid c
  have hv2 : c.toNat < 0xd800 ∨ (0xdfff < c.toNat ∧ c.toNat < 0x110000) := hv
  have hc : Char.ofNat c.toNat = c := Char.ofNat_toNat c
  unfold utf8Encode
  split
  · rename_i h
    rw [List.foldl_cons, List.foldl_nil, utf8Step_ascii _ _ h, hc]
  · split
    · rw [List.foldl_cons, List.foldl_cons, List.foldl_nil,
        utf8Step_lead2 _ _ (by omega) (by omega),
        utf8Step_last _ _ _ _ c.toNat (by omega) (by omega) (by omega) (by omega) hv, hc]
    · split
      · rw [List.foldl_cons, List.foldl_cons, List.foldl_cons, List.foldl_nil,
          utf8Step_lead3 _ _ (by omega) (by omega),
          utf8Step_cont _ _ _ _ _ (by omega) (by omega) (by omega),
          utf8Step_last _ _ _ _ c.toNat (by omega) (by omega) (by omega) (by omega) hv, hc]
      · rw [List.foldl_cons, List.foldl_cons, List.foldl_cons, List.foldl_cons, List.foldl_nil,
          utf8Step_lead4 _ _ (by omega) (by omega),
          utf8Step_cont _ _ _ _ _ (by omega) (by omega) (by omega),
          utf8Step_cont _ _ _ _ _ (by omega) (by omega) (by omega),
          utf8Step_last _ _ _ _ c.toNat (by omega) (by omega) (by omega) (by omega) hv, hc]

theorem utf8Step_flatMap : ∀ (s : List Char) (acc : List Char),
    (s.flatMap utf8Encode).foldl utf8Step (some (acc, 0, 0, 0)) = some (acc ++ s, 0, 0, 0)
  | [], acc => by simp
  | c :: t, acc => by
    rw [List.flatMap_cons, List.foldl_append, utf8Step_encode, utf8Step_flatMap t]
    simp

theorem utf8Decode_flatMap (s : List Char) : utf8Decode (s.flatMap utf8Encode) = some s := by
  unfold utf8Decode
  rw [utf8Step_flatMap]
  rfl



theorem hexUpper_facts : ∀ v < 16,
    isDigitOf 16 (hexUpper v) = true ∧ digitVal (hexUpper v) = some v ∧
    isUriUnreserved (hexUpper v) = true := by
  decide

theorem unreserved_ascii (c : Char) (h : isUriUnreserved c = true) :
    c.toNat ≠ 37 ∧ c.toNat < 128 := by
  simp only [isUriUnreserved, decide_eq_true_eq] at h
  simp only [List.mem_cons, List.mem_singleton, List.not_mem_nil, or_false] at h
  omega

theorem percentBytes_plain (c : Char) (rest : List Char) (h37 : c.toNat ≠ 37)
    (h : c.toNat < 128) :
    percentBytes (c :: rest) = (percentBytes rest).map (fun l => c.toNat :: l) := by
  rcases rest with _ | ⟨a, _ | ⟨b, r⟩⟩ <;> simp only [percentBytes, if_neg h37, if_pos h]

theorem percentBytes_pctByte (b : Nat) (rest : List Char) (hb : b < 256) :
    percentBytes (pctByte b ++ rest) = (percentBytes rest).map (fun l => b :: l) := by
  have h1 := hexUpper_facts (b / 16 % 16) (Nat.mod_lt _ (by norm_num))
  have h2 := hexUpper_facts (b % 16) (Nat.mod_lt _ (by norm_num))
  have e : 16 * (b / 16 % 16) + b % 16 = b := by omega
  simp only [pctByte, List.cons_append, List.nil_append]
  rw [percentBytes, if_pos (by decide)]
  simp only [h1.1, h1.2.1, h2.1, h2.2.1, Bool.and_self, if_true, Option.getD_some, e]

theorem percentBytes_escapes : ∀ (bs : List Nat) (rest : List Char), (∀ b ∈ bs, b < 256) →
    percentBytes (bs.flatMap pctByte ++ rest) = (percentBytes rest).map (fun l => bs ++ l)
  | [], rest, _ => by simp
  | b :: t, rest, h => by
    rw [List.flatMap_cons, List.append_assoc, percentBytes_pctByte b _ (h b (by simp)),
      percentBytes_escapes t rest (fun x hx => h x (by simp [hx]))]
    rw [Option.map_map]
    rfl

theorem utf8Encode_lt (c : Char) : ∀ b ∈ utf8Encode c, b < 256 := by
  have hv2 : c.toNat < 0xd800 ∨ (0xdfff < c.toNat ∧ c.toNat < 0x110000) := char_valid c
  intro b hb
  unfold utf8Encode at hb
  split at hb
  · simp only [List.mem_singleton] at hb; omega
  · split at hb
    · simp only [List.mem_cons, List.mem_singleton, List.not_mem_nil, or_false] at hb; omega
    · split at hb
      · simp only [List.mem_cons, List.mem_singleton, List.not_mem_nil, or_false] at hb; omega
      · simp only [List.mem_cons, List.mem_singleton, List.not_mem_nil, or_false] at hb; omega

theorem percentBytes_encodeChar (c : Char) (rest : List Char) :
    percentBytes (encodeChar c ++ rest) = (percentBytes rest).map (fun l => utf8Encode c ++ l) := by
  unfold encodeChar
  split
  · rename_i h
    have ha := unreserved_ascii c h
    rw [List.singleton_append, percentBytes_plain c rest ha.1 ha.2]
    have : utf8Encode c = [c.toNat] := by
      unfold utf8Encode
      rw [if_pos ha.2]
    rw [this]
    rfl
  · exact percentBytes_escapes _ rest (utf8Encode_lt c)

theorem percentBytes_encodeURIComponent : ∀ (s : List Char),
    percentBytes (encodeURIComponent s) = some (s.flatMap utf8Encode)
  | [] => rfl
  | c :: t => by
    have ih := percentBytes_encodeURIComponent t
    unfold encodeURIComponent at ih ⊢
    rw [List.flatMap_cons, percentBytes_encodeChar, ih]
    rfl

theorem percentDecode_encodeURIComponent (s : List Char) :
    percentDecode (encodeURIComponent s) = some s := by
  unfold percentDecode
  rw [percentBytes_encodeURIComponent, Option.some_bind, utf8Decode_flatMap]

theorem encodeChar_chars (c : Char) :
    ∀ ch ∈ encodeChar c, isUriUnreserved ch = true ∨ ch = '%' := by
  intro ch hch
  unfold encodeChar at hch
  split at hch
  · rename_i h
    rw [List.mem_singleton] at hch
    exact Or.inl (hch ▸ h)
  · rw [List.mem_flatMap] at hch
    obtain ⟨b, _, hb⟩ := hch
    simp only [pctByte, List.mem_cons, List.mem_singleton, List.not_mem_nil, or_false] at hb
    rcases hb with rfl | rfl | rfl
    · exact Or.inr rfl
    · exact Or.inl (hexUpper_facts _ (Nat.mod_lt _ (by norm_num))).2.2
    · exact Or.inl (hexUpper_facts _ (Nat.mod_lt _ (by norm_num))).2.2

theorem encodeURIComponent_chars (s : List Char) :
    ∀ ch ∈ encodeURIComponent s, isUriUnreserved ch = true ∨ ch = '%' := by
  intro ch hch
  unfold encodeURIComponent at hch
  rw [List.mem_flatMap] at hch
  obtain ⟨c, _, hc⟩ := hch
  exact encodeChar_chars c ch hc

theorem delimiters_reserved : ∀ ch ∈ "&=?#/:@+, ".toList,
    isUriUnreserved ch = false ∧ ch ≠ '%' := by
  decide

theorem encodeURIComponent_no_delimiter (s : List Char) :
    ∀ ch ∈ "&=?#/:@+, ".toList, ch ∉ encodeURIComponent s := by
  intro ch hch hmem
  have h1 := delimiters_reserved ch hch
  rcases encodeURIComponent_chars s ch hmem with h | h
  · rw [h1.1] at h; exact absurd h (by decide)
  · exact h1.2 h

theorem encodeURIComponent_append (a b : List Char) :
    encodeURIComponent (a ++ b) = encodeURIComponent a ++ encodeURIComponent b := by
  unfold encodeURIComponent
  rw [List.flatMap_append]



theorem count_encodeURIComponent (s : List Char) :
    ∀ ch ∈ "&=?#/:@+, ".toList, (encodeURIComponent s).count ch = 0 := by
  intro ch hch
  exact List.count_eq_zero.mpr (encodeURIComponent_no_delimiter s ch hch)

/-! ### The counter of line 45 -/

/-- What line 45 computes: the seconds are rounded to the nearest integer before the division
by 30, so the counter of a clock reading of `t` ms is `floor((t + 500) / 30000)`, and two
readings with the same `floor((t + 500) / 30000)` get the same counter, the same message and,
for the same secret, the same code. -/
theorem timeCounter_rounds_seconds (t1 t2 : Nat)
    (h : (t1 + 500) / 30000 = (t2 + 500) / 30000) :
    timeCounter t1 = (t1 + 500) / 30000 ∧ timeCounter t1 = timeCounter t2 ∧
    mssg t1 = mssg t2 ∧
    ∀ (hmac : List Nat → List Nat → List Nat) (secret : List Char),
      getOTP hmac t1 secret = getOTP hmac t2 secret := by
  have e : ∀ t, timeCounter t = (t + 500) / 30000 := by
    intro t
    unfold timeCounter roundSeconds
    omega
  have hc : timeCounter t1 = timeCounter t2 := by rw [e, e, h]
  have hm : mssg t1 = mssg t2 := by unfold mssg; rw [hc]
  refine ⟨e t1, hc, hm, ?_⟩
  intro hmac secret
  unfold getOTP
  simp only [hm]

/-- The lemma `timeCounter_rounds_seconds` at the readings 29500 ms and 59499 ms. -/
theorem timeCounter_rounds_seconds_witness :
    (29500 + 500) / 30000 = (59499 + 500) / 30000 ∧ timeCounter 29500 = (29500 + 500) / 30000 ∧
    mssg 29500 = mssg 59499 :=
  ⟨by decide, (timeCounter_rounds_seconds 29500 59499 (by decide)).1,
    (timeCounter_rounds_seconds 29500 59499 (by decide)).2.2.1⟩

/-! ## The claims -/

/-- Claim C1, evaluated where it fails: `getOTP` does not always return 6 digits. For the secret
`JBSWY3DPEHPK3PXP` at the clock reading 1704838740000 ms the key is `48 65 6c 6c 6f 21 de ad be ef`,
the message is the counter 56827958, the HMAC-SHA1 digest is `shortDigest`, whose window at
offset 7 is `80 00 db 8f`; the masked value is 56207 and `slice(-6)` of its decimal text `56207`
adds no zero: the code returned has 5 characters, not 6. -/
theorem getOTP_five_characters :
    bufferFromHex (base32tohex "JBSWY3DPEHPK3PXP".toList)
      = [0x48, 0x65, 0x6c, 0x6c, 0x6f, 0x21, 0xde, 0xad, 0xbe, 0xef] ∧
    mssg 1704838740000 = [0, 0, 0, 0, 0x03, 0x63, 0x20, 0x36] ∧
    hmacSha1 (bufferFromHex (base32tohex "JBSWY3DPEHPK3PXP".toList)) (mssg 1704838740000)
      = shortDigest ∧
    truncatedValue (hexEncode shortDigest) = 56207 ∧
    getOTP hmacSha1 1704838740000 "JBSWY3DPEHPK3PXP".toList = "56207".toList ∧
    (getOTP hmacSha1 1704838740000 "JBSWY3DPEHPK3PXP".toList).length = 5 := by
  decide

/-- Claim C2 as stated fails at `ABCDEFG!`: the character `!` is not found in the alphabet
(index -1), yet `base32tohex` returns the string `00443214c0`, no error is raised, and `getOTP`
goes on with the key bytes `00 44 32 14 c0` and returns a code (`735503` at the clock
reading 0). -/
theorem base32tohex_bang_returns :
    indexOf base32chars (toUpperCase '!') = -1 ∧
    base32bits "ABCDEFG!".toList = "00000000010001000011001000010100110000-1".toList ∧
    base32tohex "ABCDEFG!".toList = "00443214c0".toList ∧
    bufferFromHex (base32tohex "ABCDEFG!".toList) = [0x00, 0x44, 0x32, 0x14, 0xc0] ∧
    getOTP hmacSha1 0 "ABCDEFG!".toList = "735503".toList := by
  decide

/-- Claim C2 as amended: `base32tohex` has no error path. A character `c` of the Basic
Multilingual Plane that `indexOf` does not find in the alphabet after upper-casing (index -1)
adds the five characters `000-1` to `bits`, between the bits of what precedes it and the bits
of what follows it, and the second loop ends within its fuel and returns a string all the
same. -/
theorem base32tohex_unknown_symbol (pre post : List Char) (c : Char)
    (hbmp : c.toNat < 0x10000) (hc : indexOf base32chars (toUpperCase c) = -1) :
    symbolBits c = "000-1".toList ∧
    base32bits (pre ++ c :: post) = base32bits pre ++ "000-1".toList ++ base32bits post ∧
    ∀ fuel, (base32bits (pre ++ c :: post)).length ≤ fuel →
      hexLoop (base32bits (pre ++ c :: post)) fuel 0 [] = base32tohex (pre ++ c :: post) := by
  have h1 : symbolBits c = "000-1".toList := by
    unfold symbolBits unitVals
    rw [if_pos hbmp, hc]
    decide
  refine ⟨h1, ?_, ?_⟩
  · rw [base32bits_append, show c :: post = [c] ++ post from rfl, base32bits_append]
    simp only [base32bits_eq_flatMap, List.flatMap_cons, List.flatMap_nil, List.append_nil, h1,
      List.append_assoc]
  · intro fuel hf
    unfold base32tohex
    simp only
    rw [hexLoop_eq _ _ 0 [] (by omega), hexLoop_eq _ _ 0 [] (by omega)]

/-- Witness of `base32tohex_unknown_symbol` at `ABCDEFG` followed by `!`. -/
theorem base32tohex_unknown_symbol_witness :
    '!'.toNat < 0x10000 ∧ indexOf base32chars (toUpperCase '!') = -1 ∧
    base32bits ("ABCDEFG".toList ++ '!' :: []) =
      base32bits "ABCDEFG".toList ++ "000-1".toList ++ base32bits [] :=
  ⟨by decide, by decide,
    (base32tohex_unknown_symbol "ABCDEFG".toList [] '!' (by decide) (by decide)).2.1⟩

/-- Claim C3: for a string `s` of `N` alphabet symbols, `base32tohex s` has `floor(5N/4)`
characters (the trailing `5N mod 4` bits are dropped, nothing is padded), and for every
`k < floor(5N/4)` its `k`-th character is the hexadecimal digit of the 4-bit number
`B[4k..4k+3]`, where `B = streamBits s`, of length `5N`, is the concatenation of the 5-bit
big-endian forms of the alphabet indices. -/
theorem base32tohex_reference (s : List Char) (hs : ∀ c ∈ s, c ∈ base32chars) :
    (streamBits s).length = 5 * s.length ∧
    (base32tohex s).length = 5 * s.length / 4 ∧
    ∀ k, k < 5 * s.length / 4 →
      (base32tohex s)[k]? = some (Nat.digitChar (streamNibble s k)) ∧ streamNibble s k < 16 := by
  rw [base32tohex_eq_nibbles s hs]
  have hlen : (nibbleList (streamBits s)).length = 5 * s.length / 4 := by
    rw [nibbleList_length, streamBits_length]
  refine ⟨streamBits_length s, by rw [List.length_map, hlen],
    fun k hk => ⟨?_, streamNibble_lt s k⟩⟩
  have hk2 : k < (streamBits s).length / 4 := by rw [streamBits_length]; exact hk
  have hg := nibbleList_getD (streamBits s) k hk2
  rw [List.getD_eq_getElem _ _ (by omega)] at hg
  rw [List.getElem?_map, List.getElem?_eq_getElem (by omega)]
  simp only [Option.map_some', streamNibble, hg]

/-- Witness of `base32tohex_reference` at `JBSWY3DPEHPK3PXP`, third hexadecimal digit. -/
theorem base32tohex_reference_witness :
    (∀ c ∈ "JBSWY3DPEHPK3PXP".toList, c ∈ base32chars) ∧
    (base32tohex "JBSWY3DPEHPK3PXP".toList).length = 5 * 16 / 4 ∧
    (base32tohex "JBSWY3DPEHPK3PXP".toList)[2]? =
      some (Nat.digitChar (streamNibble "JBSWY3DPEHPK3PXP".toList 2)) :=
  ⟨by decide, (base32tohex_reference _ (by decide)).2.1,
    ((base32tohex_reference "JBSWY3DPEHPK3PXP".toList (by decide)).2.2 2 (by decide)).1⟩

/-- Claim C4: for a string of `N ≥ 0` alphabet symbols, `base32tohex` returns a string made only
of the characters `0-9` and `a-f`, of length exactly `floor(5N/4)`. -/
theorem base32tohex_hex_length (s : List Char) (hs : ∀ c ∈ s, c ∈ base32chars) :
    (∀ ch ∈ base32tohex s, ch ∈ hexChars) ∧ (base32tohex s).length = 5 * s.length / 4 := by
  rw [base32tohex_eq_nibbles s hs]
  constructor
  · intro ch hch
    rw [List.mem_map] at hch
    obtain ⟨v, hv, rfl⟩ := hch
    exact digitChar_mem_hexChars v (nibbleList_lt _ (streamBits_lt_two s) v hv)
  · rw [List.length_map, nibbleList_length, streamBits_length]

/-- Witness of `base32tohex_hex_length` at the 5 symbols `MFRGG` (6 hexadecimal digits). -/
theorem base32tohex_hex_length_witness :
    (∀ c ∈ "MFRGG".toList, c ∈ base32chars) ∧
    (∀ ch ∈ base32tohex "MFRGG".toList, ch ∈ hexChars) ∧
    (base32tohex "MFRGG".toList).length = 5 * 5 / 4 :=
  ⟨by decide, base32tohex_hex_length "MFRGG".toList (by decide)⟩

/-- Claim C5: round trip with the reference encoder. For every byte sequence (a list of
numbers, each taken modulo 256 by the encoder and by the hexadecimal text alike),
`base32tohex` of its unpadded RFC 4648 base32 encoding, cut to its first `2 * |bytes|`
characters, is the lowercase hexadecimal text of the bytes; what follows is at most one `0`,
the residue of the zero fill bits. The bytes `48 65 6c 6c 6f 21 de ad be ef` encode to
`JBSWY3DPEHPK3PXP`, which `base32tohex` turns into `48656c6c6f21deadbeef`. -/
theorem base32tohex_roundtrip (bytes : List Nat) :
    (base32tohex (rfc4648Encode bytes)).take (2 * bytes.length) = hexEncode bytes ∧
    (∃ k, k ≤ 1 ∧ base32tohex (rfc4648Encode bytes) = hexEncode bytes ++ zeros k) ∧
    rfc4648Encode [0x48, 0x65, 0x6c, 0x6c, 0x6f, 0x21, 0xde, 0xad, 0xbe, 0xef]
      = "JBSWY3DPEHPK3PXP".toList ∧
    base32tohex "JBSWY3DPEHPK3PXP".toList = "48656c6c6f21deadbeef".toList := by
  refine ⟨?_, base32tohex_rfc4648Encode bytes, by decide, by decide⟩
  obtain ⟨k, _, h⟩ := base32tohex_rfc4648Encode bytes
  rw [h, ← hexEncode_length, List.take_left]

/-- Claim C6: dynamic truncation on the hexadecimal text equals RFC 4226 on the bytes. For every
digest `d` of 20 bytes, the integer that `getOTP` formats in decimal is
`(d[o]*2^24 + d[o+1]*2^16 + d[o+2]*2^8 + d[o+3]) mod 2^31` with `o = d[19] mod 16`; it is
non-negative and below `2^31`, and `getOTP` returns the last 6 characters of its decimal text. -/
theorem truncatedValue_rfc4226 (d : List Nat) (hlen : d.length = 20) (hb : ∀ b ∈ d, b < 256) :
    truncatedValue (hexEncode d) = ((rfc4226Truncate d : Nat) : Int) ∧
    0 ≤ truncatedValue (hexEncode d) ∧ truncatedValue (hexEncode d) < 2 ^ 31 ∧
    ∀ (hmac : List Nat → List Nat → List Nat) (now : Nat) (secret : List Char),
      hmac (bufferFromHex (base32tohex secret)) (mssg now) = d →
      getOTP hmac now secret = sliceNeg 6 (Nat.toDigits 10 (rfc4226Truncate d)) := by
  have h := truncatedValue_bytes d hlen hb
  have hlt : rfc4226Truncate d < 2 ^ 31 := Nat.mod_lt _ (by norm_num)
  refine ⟨h, by rw [h]; exact Int.ofNat_nonneg _, by rw [h]; exact_mod_cast hlt, ?_⟩
  intro hmac now secret hd
  simp only [getOTP, otpOfDigest, hd, h, toStringRadix]
  rw [if_neg (by omega)]
  rfl

/-- Witness of `truncatedValue_rfc4226` at the digest `shortDigest`. -/
theorem truncatedValue_rfc4226_witness :
    shortDigest.length = 20 ∧ (∀ b ∈ shortDigest, b < 256) ∧
    truncatedValue (hexEncode shortDigest) = ((rfc4226Truncate shortDigest : Nat) : Int) :=
  ⟨by decide, by decide, (truncatedValue_rfc4226 shortDigest (by decide) (by decide)).1⟩

/-- Claim C7, evaluated where it fails: the counter is not the number of 30-second intervals
from the epoch. At the clock reading 29500 ms no interval has elapsed
(`floor(29500 / 30000) = 0`), yet `Math.round` makes the seconds 30 and the counter 1; the
readings 29499 ms and 29500 ms, which lie in the same 30-second window, get different
messages and, for the secret `JBSWY3DPEHPK3PXP`, the different codes `282760` and `996554`. -/
theorem timeCounter_not_floor :
    roundSeconds 29500 = 30 ∧ timeCounter 29500 = 1 ∧ 29500 / 30000 = 0 ∧
    timeCounter 29499 = 0 ∧ 29499 / 30000 = 29500 / 30000 ∧
    mssg 29499 = [0, 0, 0, 0, 0, 0, 0, 0] ∧ mssg 29500 = [0, 0, 0, 0, 0, 0, 0, 1] ∧
    mssg 29499 ≠ mssg 29500 ∧
    getOTP hmacSha1 29499 "JBSWY3DPEHPK3PXP".toList = "282760".toList ∧
    getOTP hmacSha1 29500 "JBSWY3DPEHPK3PXP".toList = "996554".toList := by
  decide

/-- Claim C8: for every counter `c < 2^64` the hexadecimal text built from `c` has exactly 16
hexadecimal digits, is the text of `c` with zeros on its left, and reads as `c` in base 16; the
message has exactly 8 bytes and is the big-endian encoding of `c`. -/
theorem counter_message_big_endian (c : Nat) (hc : c < 2 ^ 64) :
    (counterHex c).length = 16 ∧ (∀ ch ∈ counterHex c, ch ∈ hexChars) ∧
    (∃ z, counterHex c = zeros z ++ Nat.toDigits 16 c) ∧
    parseInt (counterHex c) 16 = some (c : Int) ∧
    (counterBytes c).length = 8 ∧ (∀ b ∈ counterBytes c, b < 256) ∧
    valueOfDigits 256 (counterBytes c) = c := by
  obtain ⟨heq, hz⟩ := counterHex_eq c hc
  have hlt := fixedDigits_lt 16 (by norm_num) 16 c
  have hb := pairUp_fixedDigits c hc
  refine ⟨?_, ?_, hz, ?_, ?_⟩
  · rw [heq, List.length_map, fixedDigits_length]
  · intro ch hch
    rw [heq, List.mem_map] at hch
    obtain ⟨v, hv, rfl⟩ := hch
    exact digitChar_mem_hexChars v (hlt v hv)
  · rw [heq, parseInt_hexDigits _ (by
      intro h
      have := congrArg List.length h
      rw [fixedDigits_length] at this
      simp at this) hlt, valueOfDigits_fixedDigits 16 (by norm_num)]
    congr 2
    exact Nat.mod_eq_of_lt (by norm_num; omega)
  · unfold counterBytes
    rw [heq, bufferFromHex_digits _ hlt]
    exact hb

/-- Witness of `counter_message_big_endian` at the counter 56827958. -/
theorem counter_message_big_endian_witness :
    56827958 < 2 ^ 64 ∧ (counterHex 56827958).length = 16 ∧
    valueOfDigits 256 (counterBytes 56827958) = 56827958 :=
  ⟨by decide, (counter_message_big_endian 56827958 (by decide)).1,
    (counter_message_big_endian 56827958 (by decide)).2.2.2.2.2.2⟩

/-- Claim C9: for every `length` and every sequence of draws in `[0,1)`, `randomBase32` returns
a string of even length, at least `length` (exactly `length` if it is even, `length + 1` if it
is odd), all of whose characters are alphabet symbols, the `i`-th one being the symbol at
index `floor(32 * r_i)` for the `i`-th draw `r_i`. -/
theorem randomBase32_spec (draws : Nat → ℚ) (length : Nat)
    (hd : ∀ i, 0 ≤ draws i ∧ draws i < 1) :
    (randomBase32 draws length).length % 2 = 0 ∧
    length ≤ (randomBase32 draws length).length ∧
    (length % 2 = 0 → (randomBase32 draws length).length = length) ∧
    (length % 2 = 1 → (randomBase32 draws length).length = length + 1) ∧
    (∀ c ∈ randomBase32 draws length, c ∈ base32chars) ∧
    ∀ i, i < (randomBase32 draws length).length →
      (⌊32 * draws i⌋).toNat < 32 ∧
      (randomBase32 draws length)[i]? = base32chars[(⌊32 * draws i⌋).toNat]? := by
  rw [randomBase32_eq draws length hd]
  simp only [List.length_map, List.length_range]
  refine ⟨by split <;> omega, by split <;> omega, fun h => by rw [if_pos h],
    fun h => by rw [if_neg (by omega)], ?_, ?_⟩
  · intro c hc
    rw [List.mem_map] at hc
    obtain ⟨i, _, rfl⟩ := hc
    exact (alphabet_getD _ (randomSymbol_of_unit (draws i) (hd i).1 (hd i).2).1).1
  · intro i hi
    have hr := randomSymbol_of_unit (draws i) (hd i).1 (hd i).2
    rw [mul_comm]
    refine ⟨hr.1, ?_⟩
    rw [List.getElem?_map, List.getElem?_range hi]
    simp only [Option.map_some']
    have hnn : (0 : ℤ) ≤ ⌊draws i * 32⌋ :=
      Int.floor_nonneg.mpr (mul_nonneg (hd i).1 (by norm_num))
    have := hr.2
    unfold randomSymbol at this
    rw [if_neg (by omega)] at this
    rw [this]

/-- Witness of `randomBase32_spec` for draws that are all 0 and `length = 3`. -/
theorem randomBase32_spec_witness :
    (∀ i : Nat, (0 : ℚ) ≤ (fun _ => 0) i ∧ (fun _ => (0 : ℚ)) i < 1) ∧
    (randomBase32 (fun _ => 0) 3).length % 2 = 0 ∧
    3 ≤ (randomBase32 (fun _ => 0) 3).length ∧
    (randomBase32 (fun _ => 0) 3).length = 3 + 1 :=
  ⟨fun _ => ⟨le_refl _, zero_lt_one⟩,
    (randomBase32_spec (fun _ => 0) 3 (fun _ => ⟨le_refl _, zero_lt_one⟩)).1,
    (randomBase32_spec (fun _ => 0) 3 (fun _ => ⟨le_refl _, zero_lt_one⟩)).2.1,
    (randomBase32_spec (fun _ => 0) 3 (fun _ => ⟨le_refl _, zero_lt_one⟩)).2.2.2.1 (by decide)⟩

/-- Claim C10 as stated fails at the secret `AAAA`, of even length 4 and returned by
`randomBase32` when all draws are 0: `base32tohex` yields the 5 hexadecimal digits `00000`, an
odd number, `5 * 4 = 20` is not a multiple of 8, and the key is 2 bytes, 4 bits being lost. -/
theorem even_length_not_whole_bytes :
    "AAAA".toList.length % 2 = 0 ∧ (∀ c ∈ "AAAA".toList, c ∈ base32chars) ∧
    randomBase32 (fun _ => 0) 4 = "AAAA".toList ∧
    base32tohex "AAAA".toList = "00000".toList ∧
    (base32tohex "AAAA".toList).length % 2 = 1 ∧ 5 * "AAAA".toList.length % 8 = 4 ∧
    bufferFromHex (base32tohex "AAAA".toList) = [0, 0] :=
  ⟨by decide, by decide, randomBase32_zero_draws, by decide, by decide, by decide, by decide⟩

/-- Claim C10 as amended: a length that is a multiple of 8 ensures whole-byte alignment. For
every secret of `N` alphabet symbols with `N` a multiple of 8, `base32tohex` yields an even
number of hexadecimal digits, `5N` is a multiple of 8, no bit of the `5N`-bit stream is left
over (`4 * digits = 5N`) and the key has exactly `5N/8` bytes. -/
theorem whole_bytes_of_length_multiple_of_eight (s : List Char)
    (hs : ∀ c ∈ s, c ∈ base32chars) (h8 : s.length % 8 = 0) :
    (base32tohex s).length % 2 = 0 ∧ 5 * s.length % 8 = 0 ∧
    4 * (base32tohex s).length = 5 * s.length ∧
    8 * (bufferFromHex (base32tohex s)).length = 5 * s.length := by
  have hl := base32tohex_length_of_valid s hs
  have hk : (bufferFromHex (base32tohex s)).length = (base32tohex s).length / 2 := by
    rw [base32tohex_eq_nibbles s hs,
      bufferFromHex_digits _ (nibbleList_lt _ (streamBits_lt_two s)), pairUp_length,
      List.length_map]
  rw [hk, hl]
  omega

/-- Witness of `whole_bytes_of_length_multiple_of_eight` at the 16 symbols
`JBSWY3DPEHPK3PXP`. -/
theorem whole_bytes_of_length_multiple_of_eight_witness :
    (∀ c ∈ "JBSWY3DPEHPK3PXP".toList, c ∈ base32chars) ∧
    "JBSWY3DPEHPK3PXP".toList.length % 8 = 0 ∧
    (base32tohex "JBSWY3DPEHPK3PXP".toList).length % 2 = 0 ∧
    8 * (bufferFromHex (base32tohex "JBSWY3DPEHPK3PXP".toList)).length
      = 5 * "JBSWY3DPEHPK3PXP".toList.length :=
  ⟨by decide, by decide,
    (whole_bytes_of_length_multiple_of_eight "JBSWY3DPEHPK3PXP".toList (by decide) (by decide)).1,
    (whole_bytes_of_length_multiple_of_eight "JBSWY3DPEHPK3PXP".toList (by decide)
      (by decide)).2.2.2⟩

/-- Claim C11: whatever the draws in `[0,1)` of the random source, `generateSharedSecret`
returns exactly 16 alphabet symbols, and the secret carries exactly 80 bits: its bit string
has length 80, `base32tohex` of it has exactly 20 hexadecimal digits, and `getOTP` reads them
into a key of exactly 10 bytes, the bytes of the whole bit string, no bit being dropped. -/
theorem generateSharedSecret_eighty_bits (draws : Nat → ℚ)
    (hd : ∀ i, 0 ≤ draws i ∧ draws i < 1) :
    (generateSharedSecret draws).length = 16 ∧
    (∀ c ∈ generateSharedSecret draws, c ∈ base32chars) ∧
    (streamBits (generateSharedSecret draws)).length = 80 ∧
    (base32tohex (generateSharedSecret draws)).length = 20 ∧
    (∀ ch ∈ base32tohex (generateSharedSecret draws), ch ∈ hexChars) ∧
    (bufferFromHex (base32tohex (generateSharedSecret draws))).length = 10 ∧
    ∀ (hmac : List Nat → List Nat → List Nat) (now : Nat),
      getOTP hmac now (generateSharedSecret draws)
        = otpOfDigest (hexEncode (hmac (pairUp (nibbleList (streamBits (generateSharedSecret draws))))
            (mssg now))) := by
  have heq := randomBase32_eq draws 16 hd
  have hlen : (generateSharedSecret draws).length = 16 := by
    unfold generateSharedSecret
    rw [heq]
    simp
  have hv : ∀ c ∈ generateSharedSecret draws, c ∈ base32chars := by
    intro c hc
    unfold generateSharedSecret at hc
    rw [heq, List.mem_map] at hc
    obtain ⟨i, _, rfl⟩ := hc
    exact (alphabet_getD _ (randomSymbol_of_unit (draws i) (hd i).1 (hd i).2).1).1
  have hn := base32tohex_eq_nibbles _ hv
  have hk : bufferFromHex (base32tohex (generateSharedSecret draws))
      = pairUp (nibbleList (streamBits (generateSharedSecret draws))) := by
    rw [hn, bufferFromHex_digits _ (nibbleList_lt _ (streamBits_lt_two _))]
  refine ⟨hlen, hv, by rw [streamBits_length, hlen], ?_, ?_, ?_, ?_⟩
  · rw [base32tohex_length_of_valid _ hv, hlen]
  · intro ch hch
    rw [hn, List.mem_map] at hch
    obtain ⟨v, hv2, rfl⟩ := hch
    exact digitChar_mem_hexChars v (nibbleList_lt _ (streamBits_lt_two _) v hv2)
  · rw [hk, pairUp_length, nibbleList_length, streamBits_length, hlen]
  · intro hmac now
    simp only [getOTP, hk]

/-- Witness of `generateSharedSecret_eighty_bits` for draws that are all 0. -/
theorem generateSharedSecret_eighty_bits_witness :
    (∀ i : Nat, (0 : ℚ) ≤ (fun _ => 0) i ∧ (fun _ => (0 : ℚ)) i < 1) ∧
    (generateSharedSecret (fun _ => 0)).length = 16 ∧
    (bufferFromHex (base32tohex (generateSharedSecret (fun _ => 0)))).length = 10 :=
  ⟨fun _ => ⟨le_refl _, zero_lt_one⟩,
    (generateSharedSecret_eighty_bits (fun _ => 0) (fun _ => ⟨le_refl _, zero_lt_one⟩)).1,
    (generateSharedSecret_eighty_bits (fun _ => 0)
      (fun _ => ⟨le_refl _, zero_lt_one⟩)).2.2.2.2.2.1⟩

/-- Claim C12: base32 decoding is case-insensitive. For a string `s` of ASCII letters and digits
2 to 7, `base32tohex s = base32tohex (upper s) = base32tohex (lower s)`, and for every
re-casing `t` of `s` (a string of such characters with the same upper-case form)
`base32tohex s = base32tohex t`; so `getOTP` returns the same code for `s`, its upper-case
form, its lower-case form and `t` at the same clock reading. -/
theorem base32tohex_case_insensitive (s t : List Char) (hs : ∀ c ∈ s, c ∈ secretChars)
    (ht : ∀ c ∈ t, c ∈ secretChars) (hst : asciiUpper s = asciiUpper t) :
    base32tohex s = base32tohex (asciiUpper s) ∧ base32tohex s = base32tohex (asciiLower s) ∧
    base32tohex s = base32tohex t ∧
    ∀ (hmac : List Nat → List Nat → List Nat) (now : Nat),
      getOTP hmac now s = getOTP hmac now (asciiUpper s) ∧
      getOTP hmac now s = getOTP hmac now (asciiLower s) ∧
      getOTP hmac now s = getOTP hmac now t := by
  have h1 := base32tohex_of_bits _ _ (base32bits_recase s hs).1
  have h2 := base32tohex_of_bits _ _ (base32bits_recase s hs).2.1
  have h3 : base32tohex s = base32tohex t := by
    rw [h1, hst, ← base32tohex_of_bits _ _ (base32bits_recase t ht).1]
  refine ⟨h1, h2, h3, ?_⟩
  intro hmac now
  simp only [getOTP, ← h1, ← h2, ← h3, and_self]

/-- Witness of `base32tohex_case_insensitive` at `jbswY3DP` and its re-casing `JBSWy3dp`. -/
theorem base32tohex_case_insensitive_witness :
    (∀ c ∈ "jbswY3DP".toList, c ∈ secretChars) ∧ (∀ c ∈ "JBSWy3dp".toList, c ∈ secretChars) ∧
    asciiUpper "jbswY3DP".toList = asciiUpper "JBSWy3dp".toList ∧
    base32tohex "jbswY3DP".toList = base32tohex "JBSWy3dp".toList :=
  ⟨by decide, by decide, by decide,
    (base32tohex_case_insensitive "jbswY3DP".toList "JBSWy3dp".toList (by decide) (by decide)
      (by decide)).2.2.1⟩

/-- Claim C13 as stated fails at the secret `ABCD1234` and the account `alice@example.com`: the
otpauth URI holds the account as it is, with a raw `@` and no `%` anywhere, whereas the
percent-encoding of the account is `alice%40example.com`. An account such as `a b?c&secret=X`
is inserted as it is too, with its space, `?`, `&` and `=`. -/
theorem otpAuthUrl_not_encoded :
    otpAuthUrl "ABCD1234".toList "alice@example.com".toList
      = ("otpauth://totp/Dharma.AI:alice@example.com?secret=ABCD1234&issuer=Dharma.AI" ++
          "&image=https://dharma.ai/wp-content/uploads/2018/06/favicon-150x150.png").toList ∧
    encodeURIComponent "alice@example.com".toList = "alice%40example.com".toList ∧
    '%' ∉ otpAuthUrl "ABCD1234".toList "alice@example.com".toList ∧
    '@' ∈ otpAuthUrl "ABCD1234".toList "alice@example.com".toList ∧
    otpAuthUrl "ABCD1234".toList "a b?c&secret=X".toList
      = ("otpauth://totp/Dharma.AI:a b?c&secret=X?secret=ABCD1234&issuer=Dharma.AI" ++
          "&image=https://dharma.ai/wp-content/uploads/2018/06/favicon-150x150.png").toList := by
  decide

/-- Claim C13 as amended: the otpauth URI is
`otpauth://totp/Dharma.AI:` + account + `?secret=` + secret + `&issuer=Dharma.AI&image=` + icon
with the account and the secret inserted verbatim. Percent-encoding is applied once, to the
whole URI, when it is wrapped as the `chl` parameter: the `chl` value is the encoding of the
fixed parts around the encodings of the account and of the secret, and percent-decoding it
gives the URI back. For `ABCD1234` and `alice@example.com` the returned URL holds
`secret%3DABCD1234`, `issuer%3DDharma.AI` and `alice%40example.com` inside `chl`. -/
theorem otpAuthUrl_verbatim (secret user : List Char) :
    otpAuthUrl secret user
      = "otpauth://totp/Dharma.AI:".toList ++ user ++ "?secret=".toList ++ secret ++
        ("&issuer=Dharma.AI" ++
          "&image=https://dharma.ai/wp-content/uploads/2018/06/favicon-150x150.png").toList ∧
    encodeURIComponent (otpAuthUrl secret user)
      = "otpauth%3A%2F%2Ftotp%2FDharma.AI%3A".toList ++ encodeURIComponent user ++
        "%3Fsecret%3D".toList ++ encodeURIComponent secret ++
        ("%26issuer%3DDharma.AI%26image%3Dhttps%3A%2F%2Fdharma.ai%2Fwp-content" ++
          "%2Fuploads%2F2018%2F06%2Ffavicon-150x150.png").toList ∧
    percentDecode (encodeURIComponent (otpAuthUrl secret user)) = some (otpAuthUrl secret user) ∧
    generateQrCode "ABCD1234".toList "alice@example.com".toList
      = ("https://chart.googleapis.com/chart?chs=300x300&chld=M|0&chr=qr&chl=" ++
          "otpauth%3A%2F%2Ftotp%2FDharma.AI%3Aalice%40example.com%3Fsecret%3DABCD1234" ++
          "%26issuer%3DDharma.AI%26image%3Dhttps%3A%2F%2Fdharma.ai%2Fwp-content" ++
          "%2Fuploads%2F2018%2F06%2Ffavicon-150x150.png").toList := by
  have h1 : otpAuthUrl secret user
      = "otpauth://totp/Dharma.AI:".toList ++ user ++ "?secret=".toList ++ secret ++
        ("&issuer=Dharma.AI" ++
          "&image=https://dharma.ai/wp-content/uploads/2018/06/favicon-150x150.png").toList := by
    simp only [otpAuthUrl, List.append_assoc]
    rfl
  refine ⟨h1, ?_, percentDecode_encodeURIComponent _, by decide⟩
  rw [h1]
  simp only [encodeURIComponent_append]
  rfl

/-- Claim C14: `generateQrCode` returns exactly `https://chart.googleapis.com/chart` followed by
`?chs=300x300&chld=M|0&chr=qr&chl=` and `P`, the percent-encoding of the otpauth URI. `P`
consists of unreserved characters (letters, digits, `- _ . ! ~ * ' ( )`) and escapes `%XX`
only, it parses as such into the UTF-8 bytes of the URI, and it holds no raw `&`, `=`, `?`,
`#` or `/`; so the returned URL has one `?`, no `#` and three `&`, that is exactly the four
query parameters `chs`, `chld`, `chr`, `chl`; and percent-decoding `P` gives back the otpauth
URI unchanged. -/
theorem generateQrCode_chart_url (secret user : List Char) :
    generateQrCode secret user
      = "https://chart.googleapis.com/chart".toList ++ "?chs=300x300&chld=M|0&chr=qr&chl=".toList
        ++ encodeURIComponent (otpAuthUrl secret user) ∧
    (∀ ch ∈ encodeURIComponent (otpAuthUrl secret user), isUriUnreserved ch = true ∨ ch = '%') ∧
    percentBytes (encodeURIComponent (otpAuthUrl secret user))
      = some ((otpAuthUrl secret user).flatMap utf8Encode) ∧
    (∀ ch ∈ "&=?#/".toList, ch ∉ encodeURIComponent (otpAuthUrl secret user)) ∧
    (generateQrCode secret user).count '&' = 3 ∧
    (generateQrCode secret user).count '?' = 1 ∧
    (generateQrCode secret user).count '#' = 0 ∧
    percentDecode (encodeURIComponent (otpAuthUrl secret user)) = some (otpAuthUrl secret user) := by
  have hshape : generateQrCode secret user
      = "https://chart.googleapis.com/chart".toList ++ "?chs=300x300&chld=M|0&chr=qr&chl=".toList
        ++ encodeURIComponent (otpAuthUrl secret user) := by
    simp only [generateQrCode, List.append_assoc]
    rfl
  have hcount := count_encodeURIComponent (otpAuthUrl secret user)
  refine ⟨hshape, encodeURIComponent_chars _, percentBytes_encodeURIComponent _, ?_, ?_, ?_, ?_,
    percentDecode_encodeURIComponent _⟩
  · intro ch hch
    exact encodeURIComponent_no_delimiter _ ch (by
      revert ch
      decide)
  · rw [hshape, List.count_append, hcount '&' (by decide)]
    decide
  · rw [hshape, List.count_append, hcount '?' (by decide)]
    decide
  · rw [hshape, List.count_append, hcount '#' (by decide)]
    decide

/-- Claim C15: for every digest of 20 bytes the string that `getOTP` returns is the last 6
characters (all of them if there are fewer) of the decimal text of the masked 31-bit value,
and read as a decimal number it equals that value modulo `10^6`, the HOTP value of RFC 4226
for 6 digits. -/
theorem otp_is_value_mod_million (d : List Nat) (hlen : d.length = 20)
    (hb : ∀ b ∈ d, b < 256) :
    otpOfDigest (hexEncode d) = sliceNeg 6 (Nat.toDigits 10 (rfc4226Truncate d)) ∧
    parseInt (otpOfDigest (hexEncode d)) 10 = some ((rfc4226Truncate d % 10 ^ 6 : Nat) : Int) ∧
    parseInt (otpOfDigest (hexEncode d)) 10 = some (truncatedValue (hexEncode d) % 10 ^ 6) ∧
    ∀ (hmac : List Nat → List Nat → List Nat) (now : Nat) (secret : List Char),
      hmac (bufferFromHex (base32tohex secret)) (mssg now) = d →
      parseInt (getOTP hmac now secret) 10 = some ((rfc4226Truncate d % 10 ^ 6 : Nat) : Int) := by
  have h := truncatedValue_bytes d hlen hb
  have hotp : otpOfDigest (hexEncode d) = sliceNeg 6 (Nat.toDigits 10 (rfc4226Truncate d)) := by
    simp only [otpOfDigest, h, toStringRadix]
    rw [if_neg (by omega)]
    rfl
  have hp := parseInt_sliceNeg_toDigits 10 (by norm_num) (by norm_num) 6 (by norm_num)
    (rfc4226Truncate d)
  refine ⟨hotp, by rw [hotp, hp], ?_, ?_⟩
  · rw [hotp, hp, h]
    norm_cast
  · intro hmac now secret hd
    simp only [getOTP, hd]
    rw [hotp, hp]

/-- Witness of `otp_is_value_mod_million` at the digest `shortDigest`. -/
theorem otp_is_value_mod_million_witness :
    shortDigest.length = 20 ∧ (∀ b ∈ shortDigest, b < 256) ∧
    parseInt (otpOfDigest (hexEncode shortDigest)) 10
      = some ((rfc4226Truncate shortDigest % 10 ^ 6 : Nat) : Int) :=
  ⟨by decide, by decide, (otp_is_value_mod_million shortDigest (by decide) (by decide)).2.1⟩

/-- Claim C16: the dynamic-truncation read never runs past the digest. For every digest of 20
bytes its hexadecimal text has 40 characters; the offset parsed from the last one is a number
`o = d[19] mod 16`, in `0..15`; the window of 8 characters from position `2 * o` ends at or
before character 38, has its full 8 characters, the text of the 4 whole bytes
`d[o..o+3]` with `o + 3 ≤ 18`, and it parses to a number, not to `NaN`. -/
theorem window_inside_digest (d : List Nat) (hlen : d.length = 20) (hb : ∀ b ∈ d, b < 256) :
    (hexEncode d).length = 40 ∧
    ∃ o : Nat, parseInt (sliceNeg 1 (hexEncode d)) 16 = some (o : Int) ∧
      o = d.getD 19 0 % 16 ∧ o ≤ 15 ∧ 2 * o + 8 ≤ 38 ∧ o + 3 ≤ 18 ∧
      (substr (hexEncode d) (2 * o) 8).length = 8 ∧
      substr (hexEncode d) (2 * o) 8
        = hexEncode [d.getD o 0, d.getD (o + 1) 0, d.getD (o + 2) 0, d.getD (o + 3) 0] ∧
      parseInt (substr (hexEncode d) (2 * o) 8) 16
        = some ((d.getD o 0 * 2 ^ 24 + d.getD (o + 1) 0 * 2 ^ 16 + d.getD (o + 2) 0 * 2 ^ 8
            + d.getD (o + 3) 0 : Nat) : Int) := by
  have ho : d.getD 19 0 % 16 < 16 := Nat.mod_lt _ (by norm_num)
  obtain ⟨hlast, hwin⟩ := window_of_digest d hlen _ ho
  refine ⟨by rw [hexEncode_length, hlen], d.getD 19 0 % 16, ?_, rfl, by omega, by omega,
    by omega, ?_, hwin, ?_⟩
  · rw [hlast]
    exact parseInt_hex1 _ ho
  · rw [hwin, hexEncode_length]
    rfl
  · rw [hwin]
    exact parseInt_window _ _ _ _ (getD_lt_of_forall d hb _) (getD_lt_of_forall d hb _)
      (getD_lt_of_forall d hb _) (getD_lt_of_forall d hb _)

/-- Witness of `window_inside_digest` at the digest `shortDigest`. -/
theorem window_inside_digest_witness :
    shortDigest.length = 20 ∧ (∀ b ∈ shortDigest, b < 256) ∧
    (hexEncode shortDigest).length = 40 :=
  ⟨by decide, by decide, (window_inside_digest shortDigest (by decide) (by decide)).1⟩

/-- Claim C17: for a secret `s` of `N` alphabet symbols the key that `getOTP` derives,
`Buffer.from(base32tohex(s), 'hex')`, has exactly `floor(5N/8)` bytes and its `j`-th byte is
the value of the bits `8j..8j+7` of the concatenated 5-bit symbol stream: it is the unpadded
RFC 4648 base32 decoding of the secret. Hence for every byte sequence the key derived from
its unpadded base32 encoding is the byte sequence itself, and `getOTP` computes the HMAC
under these bytes. -/
theorem key_is_rfc4648_decoding (s : List Char) (hs : ∀ c ∈ s, c ∈ base32chars)
    (bytes : List Nat) (hb : ∀ b ∈ bytes, b < 256) :
    (bufferFromHex (base32tohex s)).length = 5 * s.length / 8 ∧
    (∀ j, j < 5 * s.length / 8 → (bufferFromHex (base32tohex s))[j]? = some (streamByte s j)) ∧
    bufferFromHex (base32tohex (rfc4648Encode bytes)) = bytes ∧
    ∀ (hmac : List Nat → List Nat → List Nat) (now : Nat),
      getOTP hmac now (rfc4648Encode bytes) = otpOfDigest (hexEncode (hmac bytes (mssg now))) := by
  have hlen := key_length_of_valid s hs
  have hkey := key_of_rfc4648Encode bytes hb
  refine ⟨hlen, ?_, hkey, ?_⟩
  · intro j hj
    have := key_getD_of_valid s hs j hj
    rw [List.getD_eq_getElem _ _ (by omega)] at this
    rw [List.getElem?_eq_getElem (by omega), this]
  · intro hmac now
    simp only [getOTP, hkey]

/-- Witness of `key_is_rfc4648_decoding` at the secret `MFRGG` and the bytes `61 62 63`. -/
theorem key_is_rfc4648_decoding_witness :
    (∀ c ∈ "MFRGG".toList, c ∈ base32chars) ∧ (∀ b ∈ [0x61, 0x62, 0x63], b < 256) ∧
    (bufferFromHex (base32tohex "MFRGG".toList)).length = 5 * 5 / 8 ∧
    bufferFromHex (base32tohex (rfc4648Encode [0x61, 0x62, 0x63])) = [0x61, 0x62, 0x63] :=
  ⟨by decide, by decide,
    (key_is_rfc4648_decoding "MFRGG".toList (by decide) [0x61, 0x62, 0x63] (by decide)).1,
    (key_is_rfc4648_decoding "MFRGG".toList (by decide) [0x61, 0x62, 0x63] (by decide)).2.2.1⟩

end Totp
